import Mathlib

set_option maxRecDepth 8000

/-!
Verification development for the orange-dragonfly-router repository.

The model below is a shallow embedding of the current edition of the router
(the ODRouter class: constructor, register, registerDefault, route, routes
accessor, option handling).  Strings are modelled as lists of characters.
The compiled matching expression built by register from a pattern with
placeholders is modelled as a list of tokens (literal characters and capture
groups); its matching semantics implements the ECMAScript behaviour of the
concrete expression shapes the code constructs:
  - a literal character matches itself, case-insensitively when the
    expression was compiled with the i flag,
  - an integer placeholder compiles to a group matching one or more decimal
    digits,
  - a greedy placeholder compiles to a group of one-or-more dot steps; the
    ECMAScript dot matches any character except a line terminator,
  - a string placeholder compiles to a group where every step first checks
    via a negative lookahead that the separator does not occur at the
    current position (case-insensitively under the i flag) and then takes
    one dot step.
Quantifiers are greedy with backtracking, the expression is anchored at both
ends, and each group captures the consumed substring, exactly as for the
ECMAScript expression the code builds.  parseInt on a digits-only capture
produces a binary64 Number: the mathematical value of the digits is
rounded to the nearest representable double (ties to even), overflowing
to Infinity at 2^1024; an integral double is modelled by its exact value.
The params object is modelled as an association list in insertion order.
-/

/-- Convert a Lean string literal to the character-list representation. -/
def chars (s : String) : List Char := s.data

/-- JavaScript toUpperCase, modelled character-wise (ASCII letters). -/
def upperStr (s : List Char) : List Char := s.map Char.toUpper

/-- JavaScript toLowerCase, modelled character-wise (ASCII letters). -/
def lowerStr (s : List Char) : List Char := s.map Char.toLower

/-- JavaScript String.endsWith: s is a suffix of p. -/
def listEndsWith (p s : List Char) : Bool :=
  decide (s.length ≤ p.length) && (p.drop (p.length - s.length) == s)

/-- Character comparison, case-insensitive when ci is set (models matching
of a literal character in an expression compiled with the i flag). -/
def charEqCI (ci : Bool) (a b : Char) : Bool :=
  if ci then a.toLower == b.toLower else a == b

/-- Is the first list a prefix of the second, under the case rule ci. -/
def isPrefixCIB (ci : Bool) : List Char → List Char → Bool
  | [], _ => true
  | _ :: _, [] => false
  | a :: as, b :: bs => charEqCI ci a b && isPrefixCIB ci as bs

/-- Does the first list occur as a contiguous run inside the second,
under the case rule ci. -/
def containsSubCI (ci : Bool) (sep : List Char) : List Char → Bool
  | [] => isPrefixCIB ci sep []
  | c :: rest => isPrefixCIB ci sep (c :: rest) || containsSubCI ci sep rest

/-- The ECMAScript dot: any character except a line terminator. -/
def jsDotB (c : Char) : Bool :=
  !(c == '\n' || c == '\r' || c == '\u2028' || c == '\u2029')

/-- Characters allowed inside a placeholder by the extraction expression
of the router (hash, plus, letters, digits, underscore, dot, hyphen). -/
def isParamChar (c : Char) : Bool :=
  c == '#' || c == '+' || c == '_' || c == '.' || c == '-' ||
  ('a' ≤ c && c ≤ 'z') || ('A' ≤ c && c ≤ 'Z') || ('0' ≤ c && c ≤ '9')

/-- The mathematical base-10 value of a digits-only string. -/
def digitsVal (s : List Char) : Nat :=
  s.foldl (fun acc c => 10 * acc + (c.toNat - '0'.toNat)) 0

/-- Concatenation of k copies of the separator. -/
def repSep (sep : List Char) : Nat → List Char
  | 0 => []
  | Nat.succ k => repSep sep k ++ sep

/-- The three capture-group shapes the router compiles placeholders to. -/
inductive GKind where
  /-- Group of the integer placeholder: one or more decimal digits. -/
  | int : GKind
  /-- Group of the greedy placeholder: one or more dot steps. -/
  | greedy : GKind
  /-- Group of the string placeholder: steps guarded by a negative
  lookahead for the separator captured at registration time. -/
  | seg (sep : List Char) : GKind
deriving DecidableEq

/-- Tokens of the compiled matching expression. -/
inductive RTok where
  /-- A run of literal (escaped) characters. -/
  | lit (s : List Char) : RTok
  /-- A capture group. -/
  | grp (g : GKind) : RTok
deriving DecidableEq

/-- Can one quantifier step of group g consume the head character here?
For the string-placeholder group the negative lookahead inspects the whole
remaining input, as the ECMAScript lookahead does. -/
def grpPosOk (ci : Bool) (g : GKind) (rest : List Char) : Bool :=
  match rest with
  | [] => false
  | c :: _ =>
    match g with
    | GKind.int => c.isDigit
    | GKind.greedy => jsDotB c
    | GKind.seg sep => !(isPrefixCIB ci sep rest) && jsDotB c

/-- Can group g consume exactly k characters starting here (each step
checked at its own position, as the quantifier iterates)? -/
def grpTake (ci : Bool) (g : GKind) : Nat → List Char → Bool
  | 0, _ => true
  | Nat.succ k, rest => grpPosOk ci g rest && grpTake ci g k rest.tail

/-- Anchored match of a token list against the input, returning the list of
group captures on success.  A group tries every possible consumption
length, largest first, and the remaining tokens are matched on the rest of
the input; the first success wins.  This is exactly how the ECMAScript
engine evaluates the anchored expression the router builds: greedy
one-or-more quantifiers with backtracking, each group capturing the
consumed substring. -/
def matchToks (ci : Bool) : List RTok → List Char → Option (List (List Char))
  | [], s => if s.isEmpty then some [] else none
  | RTok.lit l :: ts, s =>
    if isPrefixCIB ci l s then matchToks ci ts (s.drop l.length) else none
  | RTok.grp g :: ts, s =>
    (List.range s.length).findSome? (fun i =>
      let k := s.length - i
      if grpTake ci g k s then
        match matchToks ci ts (s.drop k) with
        | some caps => some (s.take k :: caps)
        | none => none
      else none)

/-- One piece of the registered pattern as the extraction expression sees
it: a literal character, or a placeholder token (text including braces). -/
inductive Seg where
  | lit (c : Char) : Seg
  | tok (t : List Char) : Seg
deriving DecidableEq

/-- Scan of the pattern by the extraction expression of the router: a
placeholder token is an opening brace, one or more characters of the
placeholder alphabet and a closing brace; the scan is left to right and
non-overlapping, everything else is literal text.  This models the global
match of the extraction expression together with the subsequent
replacement of each token inside the escaped pattern. -/
def scanPatF : Nat → List Char → List Seg
  | 0, _ => []
  | Nat.succ fuel, p =>
    match p with
    | [] => []
    | c :: rest =>
      if c == '\x7b' then
        let run := rest.takeWhile isParamChar
        match rest.drop run.length with
        | '\x7d' :: tail =>
          if run.isEmpty then Seg.lit c :: scanPatF fuel rest
          else Seg.tok (c :: (run ++ ['\x7d'])) :: scanPatF fuel tail
        | _ => Seg.lit c :: scanPatF fuel rest
      else Seg.lit c :: scanPatF fuel rest

/-- The scan, with enough fuel for the whole pattern. -/
def scanPat (p : List Char) : List Seg := scanPatF p.length p

/-- The placeholder tokens of a scanned pattern, in order. -/
def toksOf (segs : List Seg) : List (List Char) :=
  segs.filterMap (fun s => match s with | Seg.tok t => some t | _ => none)

/-- Kind test of a token: integer placeholders start with brace-hash. -/
def tokIsInt (t : List Char) : Bool := isPrefixCIB false (chars "\x7b#") t

/-- Kind test of a token: greedy placeholders start with brace-plus. -/
def tokIsGreedy (t : List Char) : Bool := isPrefixCIB false (chars "\x7b+") t

/-- Parameter name of a token: slice(2,-1) for integer and greedy
placeholders, slice(1,-1) otherwise. -/
def tokName (t : List Char) : List Char :=
  if tokIsInt t || tokIsGreedy t then (t.drop 2).dropLast else (t.drop 1).dropLast

/-- Translate one scanned piece to a token of the compiled expression,
using the separator current at registration time for string placeholders. -/
def segToTok (sep : List Char) : Seg → RTok
  | Seg.lit c => RTok.lit [c]
  | Seg.tok t =>
    if tokIsInt t then RTok.grp GKind.int
    else if tokIsGreedy t then RTok.grp GKind.greedy
    else RTok.grp (GKind.seg sep)

/-- Router options: caseSensitive (default false) and separator
(default "/", validated non-empty). -/
structure ODRouterOptions where
  caseSensitive : Bool
  separator : List Char
deriving DecidableEq

/-- The matcher stored in a route record: a literal string for patterns
without placeholders, or a compiled expression (token list plus the
case-insensitivity flag fixed at compile time). -/
inductive Matcher where
  | str (pat : List Char) : Matcher
  | re (toks : List RTok) (ci : Bool) : Matcher
deriving DecidableEq

/-- A value of the params map: an extracted substring, or the Number
returned by parseInt — an integral binary64 modelled by its exact value,
or Infinity when the digits overflow the double range. -/
inductive PVal where
  | str (s : List Char) : PVal
  | int (n : Nat) : PVal
  | inf : PVal
deriving DecidableEq

/-- Floor of log2, fuelled (2^1100 exceeds every finite double). -/
def log2F : Nat → Nat → Nat
  | 0, _ => 0
  | Nat.succ fuel, n => if n < 2 then 0 else log2F fuel (n / 2) + 1

/-- parseInt(s, 10) on a digits-only capture, as ECMAScript evaluates it:
the mathematical value of the digits is converted to a binary64 Number by
rounding to the nearest representable value, ties to the even significand;
values that reach 2^1024 overflow to Infinity.  Values up to 2^53 are
exact; in a higher binade [2^b, 2^(b+1)) the representable doubles are
the multiples of 2^(b-52). -/
def parseIntJS (s : List Char) : PVal :=
  let n := digitsVal s
  if n ≤ Nat.pow 2 53 then PVal.int n
  else if Nat.pow 2 1024 ≤ n then PVal.inf
  else
    let b := log2F 1100 n
    let e := b - 52
    let q := n / Nat.pow 2 e
    let r := n % Nat.pow 2 e
    let q2 := if 2 * r < Nat.pow 2 e then q
      else if Nat.pow 2 e < 2 * r then q + 1
      else if q % 2 = 0 then q else q + 1
    if q2 * Nat.pow 2 e < Nat.pow 2 1024 then PVal.int (q2 * Nat.pow 2 e)
    else PVal.inf

/-- Internal route record of the router, with the precomputed metadata
(lower-cased static pattern, per-parameter integer flags, wildcard-method
flag, proxy flag). -/
structure IRec (T : Type) where
  matcher : Matcher
  pathPattern : List Char
  params : List (List Char)
  methods : List (List Char)
  integers : List (List Char)
  routeObject : T
  staticLower : Option (List Char)
  integerParams : List Bool
  hasWildcardMethod : Bool
  isProxy : Bool
deriving DecidableEq

/-- The public route record shape returned to callers (clone of the
internal record without the precomputed metadata). -/
structure PubRec (T : Type) where
  pattern : Matcher
  pathPattern : List Char
  params : List (List Char)
  methods : List (List Char)
  integers : List (List Char)
  routeObject : T
deriving DecidableEq

/-- cloneRouteRecord: the independent copy of a record handed to callers. -/
def publicRecord {T : Type} (r : IRec T) : PubRec T :=
  { pattern := r.matcher
    pathPattern := r.pathPattern
    params := r.params
    methods := r.methods
    integers := r.integers
    routeObject := r.routeObject }

/-- Process the placeholder tokens in order: parameter names, the integers
list, and the per-parameter integer flags; fails at the first token whose
name was already seen (the duplication check of register). -/
def collectParams : List (List Char) → List (List Char) →
    Except Unit (List (List Char) × List (List Char) × List Bool)
  | [], _ => Except.ok ([], [], [])
  | t :: ts, seen =>
    let n := tokName t
    if seen.contains n then Except.error ()
    else
      match collectParams ts (seen ++ [n]) with
      | Except.ok (ps, ints, ibs) =>
        Except.ok (n :: ps, (if tokIsInt t then n :: ints else ints),
                   tokIsInt t :: ibs)
      | Except.error e => Except.error e

/-- register, pattern-compilation part: uppercase the methods, extract the
placeholder tokens, and build either a static record or a compiled
expression with one capture group per placeholder; the duplication check
happens before the expression is finalized and nothing is appended to the
route table on failure.  The source assembles the expression by
sequential replace passes over the escaped pattern (unescape one token,
substitute its group); placeholder occurrences never overlap and the
substituted group texts contain a brace only when the separator does, so
this token-list translation coincides with those passes exactly when the
separator contains no brace character — the scope within which claims
about the compiled matcher are stated. -/
def compileRoute {T : Type} (opts : ODRouterOptions) (pathPattern : List Char)
    (methodsIn : List (List Char)) (routeObject : T) :
    Except (List Char) (IRec T) :=
  let methods := methodsIn.map upperStr
  let hasWildcardMethod := methods.contains (chars "*")
  let segs := scanPat pathPattern
  let isProxy := containsSubCI false (chars "\x7b+") pathPattern
  if (toksOf segs).isEmpty then
    Except.ok
      { matcher := Matcher.str pathPattern
        pathPattern := pathPattern
        params := []
        methods := methods
        integers := []
        routeObject := routeObject
        staticLower := some (lowerStr pathPattern)
        integerParams := []
        hasWildcardMethod := hasWildcardMethod
        isProxy := isProxy }
  else
    match collectParams (toksOf segs) [] with
    | Except.error _ =>
      Except.error (chars "Parameters duplication in the route " ++ pathPattern)
    | Except.ok (params, integers, integerParams) =>
      Except.ok
        { matcher := Matcher.re (segs.map (segToTok opts.separator))
                       (!opts.caseSensitive)
          pathPattern := pathPattern
          params := params
          methods := methods
          integers := integers
          routeObject := routeObject
          staticLower := none
          integerParams := integerParams
          hasWildcardMethod := hasWildcardMethod
          isProxy := isProxy }

/-- Router state: the ordered route table, the optional default route
object, and the options store. -/
structure ODRouterState (T : Type) where
  routes : List (IRec T)
  defaultRouteObject : Option T
  options : ODRouterOptions
deriving DecidableEq

/-- register: compile the pattern against the current options and append
the record; a thrown duplication error leaves the table unchanged since
the push is the last step. -/
def register {T : Type} (st : ODRouterState T) (pathPattern : List Char)
    (methods : List (List Char)) (routeObject : T) :
    Except (List Char) (ODRouterState T) :=
  match compileRoute st.options pathPattern methods routeObject with
  | Except.ok r => Except.ok { st with routes := st.routes ++ [r] }
  | Except.error e => Except.error e

/-- registerDefault: store the default route object (last write wins). -/
def registerDefault {T : Type} (st : ODRouterState T) (routeObject : T) :
    ODRouterState T :=
  { st with defaultRouteObject := some routeObject }

/-- The trailing-separator trimming loop of route: while the path ends
with the separator and is longer than it, drop the separator from the end
as one atomic unit.  The separator is validated non-empty; the fuel bound
only makes the recursion total and is never reached. -/
def trimPathF (sep : List Char) : Nat → List Char → List Char
  | 0, path => path
  | Nat.succ fuel, path =>
    if listEndsWith path sep = true ∧ sep.length < path.length then
      trimPathF sep fuel (path.take (path.length - sep.length))
    else path

/-- The trimming loop, with enough fuel for the whole path (each step
removes at least one character since the separator is non-empty). -/
def trimPath (sep path : List Char) : List Char := trimPathF sep path.length path

/-- Per-record pattern evaluation inside the route loop: a static record
compares the pattern with the path under the option value current at call
time (via the precomputed lower-cased pattern when case-insensitive); a
compiled record runs the expression, whose case rule was fixed at
registration, against the untouched path. -/
def recordCaps {T : Type} (cs : Bool) (path : List Char) (r : IRec T) :
    Option (List (List Char)) :=
  match r.matcher with
  | Matcher.str pat =>
    if (if cs then pat == path else r.staticLower == some (lowerStr path))
    then some [] else none
  | Matcher.re toks ci => matchToks ci toks path

/-- Method eligibility of a matched record: wildcard or explicit method. -/
def eligibleB {T : Type} (r : IRec T) (method : List Char) : Bool :=
  r.hasWildcardMethod || r.methods.contains method

/-- Decode the captures into the params map: integer parameters parsed as
base-10 integers, all others kept as substrings, keyed by the parameter
names in order. -/
def buildParams {T : Type} (r : IRec T) (caps : List (List Char)) :
    List (List Char × PVal) :=
  (r.params.zip (r.integerParams.zip caps)).map
    (fun nv => (nv.1, if nv.2.1 then parseIntJS nv.2.2 else PVal.str nv.2.2))

/-- The result object returned by route. -/
structure ODRouterRouteResult (T : Type) where
  path : List Char
  method : List Char
  params : List (List Char × PVal)
  route : Option (PubRec T)
  route_object : T
  is_default : Bool
deriving DecidableEq

/-- The scan of the route table: return at the first eligible non-proxy
match, defer the first eligible proxy match and keep scanning, then fall
back to the deferred proxy match, the default route object, or an error. -/
def routeLoop {T : Type} (cs : Bool) (path method : List Char) (dflt : Option T) :
    List (IRec T) → Option (IRec T × List (List Char × PVal)) →
    Except (List Char) (ODRouterRouteResult T)
  | [], defer =>
    match defer with
    | some rp =>
      Except.ok { path := path, method := method, params := rp.2
                  route := some (publicRecord rp.1)
                  route_object := rp.1.routeObject, is_default := false }
    | none =>
      match dflt with
      | some d =>
        Except.ok { path := path, method := method, params := []
                    route := none, route_object := d, is_default := true }
      | none => Except.error (chars "Route not found, default route is not defined")
  | r :: rest, defer =>
    match recordCaps cs path r with
    | some caps =>
      if eligibleB r method then
        if r.isProxy then
          routeLoop cs path method dflt rest
            (defer.orElse (fun _ => some (r, buildParams r caps)))
        else
          Except.ok { path := path, method := method, params := buildParams r caps
                      route := some (publicRecord r)
                      route_object := r.routeObject, is_default := false }
      else routeLoop cs path method dflt rest defer
    | none => routeLoop cs path method dflt rest defer

/-- route: trim trailing separators, uppercase the method, and scan the
table. -/
def route {T : Type} (st : ODRouterState T) (path0 method0 : List Char) :
    Except (List Char) (ODRouterRouteResult T) :=
  routeLoop st.options.caseSensitive (trimPath st.options.separator path0)
    (upperStr method0) st.defaultRouteObject st.routes none

/-- A record hits a request when its pattern evaluation succeeds on the
(already trimmed) path and its method set is eligible for the (already
uppercased) method. -/
def hitB {T : Type} (cs : Bool) (path method : List Char) (r : IRec T) : Bool :=
  (recordCaps cs path r).isSome && eligibleB r method

/-- The result object built for a winning record. -/
def hitResult {T : Type} (cs : Bool) (path method : List Char) (r : IRec T) :
    ODRouterRouteResult T :=
  { path := path, method := method
    params := buildParams r ((recordCaps cs path r).getD [])
    route := some (publicRecord r)
    route_object := r.routeObject, is_default := false }

/-- The outcome when no record wins: default route object or failure. -/
def noMatchResult {T : Type} (path method : List Char) (dflt : Option T) :
    Except (List Char) (ODRouterRouteResult T) :=
  match dflt with
  | some d =>
    Except.ok { path := path, method := method, params := []
                route := none, route_object := d, is_default := true }
  | none => Except.error (chars "Route not found, default route is not defined")

/-- Method eligibility as the specification words it: the method set
contains the uppercased request method or the wildcard token. -/
def eligSpec {T : Type} (r : IRec T) (method : List Char) : Bool :=
  r.methods.contains method || r.methods.contains (chars "*")

/-- The tie-break rule as the specification words it: the first-registered
eligible non-greedy match wins outright; absent one, the first-registered
eligible greedy (proxy) match; absent one, the default; absent one,
failure.  Ineligible pattern matches are skipped. -/
def routeSpecC1 {T : Type} (st : ODRouterState T) (path0 method0 : List Char) :
    Except (List Char) (ODRouterRouteResult T) :=
  let cs := st.options.caseSensitive
  let path := trimPath st.options.separator path0
  let method := upperStr method0
  let hitS := fun (r : IRec T) => (recordCaps cs path r).isSome && eligSpec r method
  match st.routes.find? (fun r => hitS r && !r.isProxy) with
  | some r => Except.ok (hitResult cs path method r)
  | none =>
    match st.routes.find? (fun r => hitS r && r.isProxy) with
    | some r => Except.ok (hitResult cs path method r)
    | none => noMatchResult path method st.defaultRouteObject

/-- Coherence of the precomputed wildcard flag with the methods list; it
holds for every record produced by register. -/
def methodsWF {T : Type} (st : ODRouterState T) : Prop :=
  ∀ r ∈ st.routes, r.hasWildcardMethod = r.methods.contains (chars "*")

/-- Decidable equality for Except values, used to evaluate concrete route
results in witnesses. -/
instance {ε α : Type} [DecidableEq ε] [DecidableEq α] : DecidableEq (Except ε α) :=
  fun a b =>
    match a, b with
    | Except.error e, Except.error f =>
      if h : e = f then Decidable.isTrue (congrArg Except.error h)
      else Decidable.isFalse (fun hh => h (Except.error.inj hh))
    | Except.ok x, Except.ok y =>
      if h : x = y then Decidable.isTrue (congrArg Except.ok h)
      else Decidable.isFalse (fun hh => h (Except.ok.inj hh))
    | Except.error _, Except.ok _ => Decidable.isFalse (fun hh => Except.noConfusion hh)
    | Except.ok _, Except.error _ => Decidable.isFalse (fun hh => Except.noConfusion hh)

/-- Unwrap a successful registration, keeping the previous state on error
(used to build concrete router states for evaluation). -/
def regD {T : Type} (st : ODRouterState T) (p : String) (ms : List String)
    (o : T) : ODRouterState T :=
  match register st (chars p) (ms.map chars) o with
  | Except.ok st' => st'
  | Except.error _ => st

/-- A fresh router state with the default options. -/
def st0 (T : Type) : ODRouterState T :=
  { routes := [], defaultRouteObject := none
    options := { caseSensitive := false, separator := chars "/" } }

/-- Concrete state: a greedy proxy route registered before a more specific
integer route. -/
def c1wSt : ODRouterState Nat :=
  regD (regD (st0 Nat) "/users/\x7b+rest\x7d" ["GET"] 1) "/users/\x7b#id\x7d" ["GET"] 2

/-- Concrete state: empty route table with a registered default. -/
def cexSt : ODRouterState Nat := registerDefault (st0 Nat) 7

/-- Standalone anchored matching of the capture group compiled for a
string-kind placeholder, under the case flag the expression was compiled
with: does the group alone accept the whole input? -/
def segGroupMatch (ci : Bool) (sep : List Char) (s : List Char) : Bool :=
  (matchToks ci [RTok.grp (GKind.seg sep)] s).isSome

/-- The capture-group kinds of a compiled expression, in order. -/
def grpsOf (toks : List RTok) : List GKind :=
  toks.filterMap (fun t => match t with | RTok.grp g => some g | _ => none)

/-- What a successful capture of a group of the given kind looks like:
non-empty, and all decimal digits for the integer group. -/
def capOk (g : GKind) (cap : List Char) : Prop :=
  cap ≠ [] ∧ (g = GKind.int → ∀ c ∈ cap, c.isDigit = true)

/-- The group kind a placeholder token compiles to. -/
def tokKind (sep : List Char) (t : List Char) : GKind :=
  if tokIsInt t then GKind.int
  else if tokIsGreedy t then GKind.greedy
  else GKind.seg sep

/-- The compile-time case flag of a matcher: present only for compiled
expressions, where it was fixed at registration. -/
def matcherFlag : Matcher → Option Bool
  | Matcher.str _ => none
  | Matcher.re _ ci => some ci

/-- A placeholder record used as fallback when unwrapping compilations. -/
def dummyRec : IRec Nat :=
  { matcher := Matcher.str [], pathPattern := [], params := [], methods := []
    integers := [], routeObject := 0, staticLower := none, integerParams := []
    hasWildcardMethod := false, isProxy := false }

/-- Unwrap a successful compilation, with a fallback record. -/
def getOkRec (x : Except (List Char) (IRec Nat)) : IRec Nat :=
  match x with
  | Except.ok r => r
  | Except.error _ => dummyRec

/-- Registration-time options with caseSensitive switched on. -/
def c4opts : ODRouterOptions :=
  { caseSensitive := true, separator := chars "/" }

/-- A literal record compiled under case-sensitive options. -/
def c4rStatic : IRec Nat :=
  getOkRec (compileRoute c4opts (chars "/users") [chars "GET"] 1)

/-- A placeholder-bearing record compiled under case-sensitive options. -/
def c4rCompiled : IRec Nat :=
  getOkRec (compileRoute c4opts (chars "/Users/\x7b#id\x7d") [chars "GET"] 2)

/-- Concrete state: one literal route and no default. -/
def c7wSt : ODRouterState Nat := regD (st0 Nat) "/test" ["GET"] 1

/-- A record with an integer and a string placeholder, compiled under the
default options. -/
def c8rec : IRec Nat :=
  getOkRec (compileRoute (st0 Nat).options
    (chars "/users/\x7b#id\x7d/\x7baction\x7d") [chars "GET"] 5)

/-- The token list of that record's compiled expression. -/
def c8tks : List RTok :=
  (scanPat (chars "/users/\x7b#id\x7d/\x7baction\x7d")).map
    (segToTok (chars "/"))

/-- The captures extracted from the path "/users/007/go". -/
def c8caps : List (List Char) := [chars "007", chars "go"]

/-- A record with a single integer placeholder, compiled under the
default options. -/
def c8bigRec : IRec Nat :=
  getOkRec (compileRoute (st0 Nat).options (chars "/users/\x7b#id\x7d")
    [chars "GET"] 6)

/-- The token list of that record's compiled expression. -/
def c8bigTks : List RTok :=
  (scanPat (chars "/users/\x7b#id\x7d")).map (segToTok (chars "/"))

/-- A brace-delimited placeholder occurrence: an opening brace, a
non-empty run of placeholder-alphabet characters, and a closing brace,
somewhere in the pattern. -/
def hasPlaceholder (p : List Char) : Prop :=
  ∃ pre w post, p = pre ++ '\x7b' :: (w ++ ('\x7d' :: post)) ∧ w ≠ [] ∧
    ∀ c ∈ w, isParamChar c = true

/-- A pattern whose only brace token has a space inside, compiled under
the default options. -/
def c10rec : IRec Nat :=
  getOkRec (compileRoute (st0 Nat).options (chars "/x/\x7ba b\x7d")
    [chars "GET"] 3)

/-- The concrete default result returned for path "/a//" on cexSt. -/
def c2wRes : ODRouterRouteResult Nat :=
  { path := chars "/a", method := chars "GET", params := []
    route := none, route_object := 7, is_default := true }

/-- A mutable heap cell: a string array (params, methods or integers of a
record) or a matcher object.  In the running program these are the
JavaScript objects reachable from a route record; the router mutates none
of them after registration, but a caller holding a reference could. -/
inductive HCell where
  | strs (xs : List (List Char)) : HCell
  | mat (m : Matcher) : HCell
deriving DecidableEq

/-- A route record as stored in the table, with its array-valued fields
and its matcher held by reference into the heap; scalar fields are
immutable values. -/
structure HRec (T : Type) where
  matcherRef : Nat
  pathPattern : List Char
  paramsRef : Nat
  methodsRef : Nat
  integersRef : Nat
  routeObject : T
  staticLower : Option (List Char)
  integerParams : List Bool
  hasWildcardMethod : Bool
  isProxy : Bool
deriving DecidableEq

/-- The references held by a record. -/
def recRefs {T : Type} (r : HRec T) : List Nat :=
  [r.matcherRef, r.paramsRef, r.methodsRef, r.integersRef]

/-- Router state at the heap level. -/
structure HRouter (T : Type) where
  recs : List (HRec T)
  heap : List HCell
  defaultRouteObject : Option T
  options : ODRouterOptions
deriving DecidableEq

/-- Read a string-array cell. -/
def heapStrs (heap : List HCell) (i : Nat) : List (List Char) :=
  match heap.getD i (HCell.strs []) with
  | HCell.strs xs => xs
  | HCell.mat _ => []

/-- Read a matcher cell. -/
def heapMat (heap : List HCell) (i : Nat) : Matcher :=
  match heap.getD i (HCell.mat (Matcher.str [])) with
  | HCell.mat m => m
  | HCell.strs _ => Matcher.str []

/-- The value-level record a heap record denotes: route() reads the
current contents of the referenced cells. -/
def viewRec {T : Type} (heap : List HCell) (r : HRec T) : IRec T :=
  { matcher := heapMat heap r.matcherRef
    pathPattern := r.pathPattern
    params := heapStrs heap r.paramsRef
    methods := heapStrs heap r.methodsRef
    integers := heapStrs heap r.integersRef
    routeObject := r.routeObject
    staticLower := r.staticLower
    integerParams := r.integerParams
    hasWildcardMethod := r.hasWildcardMethod
    isProxy := r.isProxy }

/-- The value-level router state a heap router denotes. -/
def viewState {T : Type} (hst : HRouter T) : ODRouterState T :=
  { routes := hst.recs.map (viewRec hst.heap)
    defaultRouteObject := hst.defaultRouteObject
    options := hst.options }

/-- cloneRouteRecord at the heap level: a fresh matcher object and fresh
copies of the params, methods and integers arrays are allocated, so the
returned record shares no mutable cell with the table's record. -/
def hcloneRouteRecord {T : Type} (heap : List HCell) (r : HRec T) :
    List HCell × HRec T :=
  (heap ++ [HCell.mat (heapMat heap r.matcherRef),
            HCell.strs (heapStrs heap r.paramsRef),
            HCell.strs (heapStrs heap r.methodsRef),
            HCell.strs (heapStrs heap r.integersRef)],
   { r with
     matcherRef := heap.length
     paramsRef := heap.length + 1
     methodsRef := heap.length + 2
     integersRef := heap.length + 3 })

/-- The routes accessor: clone every record of the table in order,
threading the allocations through the heap. -/
def hroutesAcc {T : Type} (hst : HRouter T) : List HCell × List (HRec T) :=
  hst.recs.foldl (fun acc r =>
    let hc := hcloneRouteRecord acc.1 r
    (hc.1, acc.2 ++ [hc.2])) (hst.heap, [])

/-- The route result at the heap level: the matched record is a clone. -/
structure HRouteResult (T : Type) where
  path : List Char
  method : List Char
  params : List (List Char × PVal)
  route : Option (HRec T)
  route_object : T
  is_default : Bool
deriving DecidableEq

/-- The route scan at the heap level: pattern evaluation and method
filtering read the referenced cells; the winning record is cloned into
freshly allocated cells before being returned. -/
def hrouteLoop {T : Type} (heap : List HCell) (cs : Bool)
    (path method : List Char) (dflt : Option T) :
    List (HRec T) → Option (HRec T × List (List Char × PVal)) →
    Except (List Char) (HRouteResult T) × List HCell
  | [], defer =>
    match defer with
    | some rp =>
      let hc := hcloneRouteRecord heap rp.1
      (Except.ok { path := path, method := method, params := rp.2
                   route := some hc.2, route_object := rp.1.routeObject
                   is_default := false }, hc.1)
    | none =>
      match dflt with
      | some d =>
        (Except.ok { path := path, method := method, params := []
                     route := none, route_object := d, is_default := true },
         heap)
      | none =>
        (Except.error (chars "Route not found, default route is not defined"),
         heap)
  | r :: rest, defer =>
    match recordCaps cs path (viewRec heap r) with
    | some caps =>
      if eligibleB (viewRec heap r) method then
        if (viewRec heap r).isProxy then
          hrouteLoop heap cs path method dflt rest
            (defer.orElse (fun _ =>
              some (r, buildParams (viewRec heap r) caps)))
        else
          let hc := hcloneRouteRecord heap r
          (Except.ok { path := path, method := method
                       params := buildParams (viewRec heap r) caps
                       route := some hc.2, route_object := r.routeObject
                       is_default := false }, hc.1)
      else hrouteLoop heap cs path method dflt rest defer
    | none => hrouteLoop heap cs path method dflt rest defer

/-- route at the heap level. -/
def hroute {T : Type} (hst : HRouter T) (path0 method0 : List Char) :
    Except (List Char) (HRouteResult T) × List HCell :=
  hrouteLoop hst.heap hst.options.caseSensitive
    (trimPath hst.options.separator path0) (upperStr method0)
    hst.defaultRouteObject hst.recs none

/-- The observable content of a heap route outcome: the cloned record is
read back through the heap the call returned. -/
def hresView {T : Type}
    (pr : Except (List Char) (HRouteResult T) × List HCell) :
    Except (List Char) (ODRouterRouteResult T) :=
  pr.1.map (fun res =>
    { path := res.path, method := res.method, params := res.params
      route := res.route.map (fun hr => publicRecord (viewRec pr.2 hr))
      route_object := res.route_object, is_default := res.is_default })

/-- Well-formed heap router: every reference of every table record points
into the heap. -/
def HWf {T : Type} (hst : HRouter T) : Prop :=
  ∀ r ∈ hst.recs, ∀ j ∈ recRefs r, j < hst.heap.length

/-- A concrete heap router with one literal route. -/
def c9wSt : HRouter Nat :=
  { recs := [{ matcherRef := 0, pathPattern := chars "/t", paramsRef := 1,
               methodsRef := 2, integersRef := 3, routeObject := 1,
               staticLower := some (chars "/t"), integerParams := [],
               hasWildcardMethod := false, isProxy := false }]
    heap := [HCell.mat (Matcher.str (chars "/t")), HCell.strs [],
             HCell.strs [chars "GET"], HCell.strs []]
    defaultRouteObject := some 0
    options := { caseSensitive := false, separator := chars "/" } }

/-- The clone of c9wSt's only record, as returned by the routes accessor:
its references point at the four freshly allocated cells. -/
def c9clone : HRec Nat :=
  { matcherRef := 4, pathPattern := chars "/t", paramsRef := 5
    methodsRef := 6, integersRef := 7, routeObject := 1
    staticLower := some (chars "/t"), integerParams := []
    hasWildcardMethod := false, isProxy := false }

/-- find? only depends on the predicate's values on the list. -/
theorem find?_congr_on {α : Type} (p q : α → Bool) :
    ∀ l : List α, (∀ a ∈ l, p a = q a) → l.find? p = l.find? q := by
  intro l
  induction l with
  | nil => intro _; rfl
  | cons a l ih =>
    intro h
    have ha := h a (by simp)
    rw [List.find?_cons, List.find?_cons, ha]
    cases q a with
    | true => rfl
    | false => exact ih (fun b hb => h b (by simp [hb]))

/-- Characterization of the route scan: the first eligible non-proxy match
wins; otherwise the already deferred proxy match or, failing that, the
first eligible proxy match of the remaining records; otherwise the default
or an error. -/
theorem routeLoop_char {T : Type} (cs : Bool) (path method : List Char)
    (dflt : Option T) :
    ∀ (l : List (IRec T)) (defer : Option (IRec T × List (List Char × PVal))),
    routeLoop cs path method dflt l defer =
      match l.find? (fun r => hitB cs path method r && !r.isProxy) with
      | some r => Except.ok (hitResult cs path method r)
      | none =>
        match defer.orElse (fun _ =>
            (l.find? (fun r => hitB cs path method r && r.isProxy)).map
              (fun r => (r, buildParams r ((recordCaps cs path r).getD [])))) with
        | some rp =>
          Except.ok { path := path, method := method, params := rp.2
                      route := some (publicRecord rp.1)
                      route_object := rp.1.routeObject, is_default := false }
        | none => noMatchResult path method dflt := by
  intro l
  induction l with
  | nil =>
    intro defer
    cases defer with
    | none => simp [routeLoop, noMatchResult]
    | some rp => simp [routeLoop]
  | cons r rest ih =>
    intro defer
    by_cases hc : ∃ caps, recordCaps cs path r = some caps
    · obtain ⟨caps, hc⟩ := hc
      have hhit : hitB cs path method r = eligibleB r method := by
        simp [hitB, hc]
      cases he : eligibleB r method with
      | false =>
        have h0 : hitB cs path method r = false := by rw [hhit, he]
        rw [routeLoop, hc]
        simp only [he, Bool.false_eq_true, if_false]
        rw [ih defer]
        rw [List.find?_cons, List.find?_cons, h0]
        simp
      | true =>
        have h1 : hitB cs path method r = true := by rw [hhit, he]
        cases hp : r.isProxy with
        | false =>
          rw [routeLoop, hc]
          simp only [he, hp, if_true, Bool.false_eq_true, if_false]
          rw [List.find?_cons]
          simp only [h1, hp, Bool.not_false, Bool.and_self]
          simp [hitResult, hc]
        | true =>
          rw [routeLoop, hc]
          simp only [he, hp, if_true]
          rw [ih]
          rw [List.find?_cons, List.find?_cons]
          simp only [h1, hp, Bool.not_true, Bool.and_false, Bool.and_true]
          cases defer with
          | none => simp [hc]
          | some d => simp
    · have hc0 : recordCaps cs path r = none := by
        cases h : recordCaps cs path r with
        | none => rfl
        | some c => exact absurd ⟨c, h⟩ hc
      have h0 : hitB cs path method r = false := by simp [hitB, hc0]
      rw [routeLoop, hc0]
      rw [ih defer]
      rw [List.find?_cons, List.find?_cons, h0]
      simp

/-- C1: route(path, method) returns the first-registered record that
matches the normalized path with an eligible method set (containing the
uppercased method or the wildcard) and that is not greedy; absent such a
record, the first-registered eligible greedy (proxy) match; a later
non-greedy eligible match beats an earlier greedy one and ineligible
pattern matches are skipped; absent any eligible match the default
applies, and absent a default route() fails. -/
theorem c1_route_precedence {T : Type} (st : ODRouterState T)
    (path method : List Char) (hwf : methodsWF st) :
    route st path method = routeSpecC1 st path method := by
  have hfind : ∀ q : IRec T → Bool,
      st.routes.find? (fun r =>
        hitB st.options.caseSensitive (trimPath st.options.separator path)
          (upperStr method) r && q r)
      = st.routes.find? (fun r =>
        ((recordCaps st.options.caseSensitive (trimPath st.options.separator path)
            r).isSome && eligSpec r (upperStr method)) && q r) := by
    intro q
    apply find?_congr_on
    intro r hr
    have hw := hwf r hr
    simp [hitB, eligibleB, eligSpec, hw, Bool.or_comm]
  unfold route routeSpecC1
  rw [routeLoop_char]
  simp only []
  rw [hfind, hfind]
  cases h1 : st.routes.find? (fun r =>
      ((recordCaps st.options.caseSensitive (trimPath st.options.separator path)
          r).isSome && eligSpec r (upperStr method)) && !r.isProxy) with
  | some r => simp
  | none =>
    cases h2 : st.routes.find? (fun r =>
        ((recordCaps st.options.caseSensitive (trimPath st.options.separator path)
            r).isSome && eligSpec r (upperStr method)) && r.isProxy) with
    | some r => simp [Option.orElse, hitResult]
    | none => simp [Option.orElse]

theorem c1_route_precedence_witness :
    methodsWF c1wSt ∧
    route c1wSt (chars "/users/42") (chars "GET")
      = routeSpecC1 c1wSt (chars "/users/42") (chars "GET") :=
  ⟨by unfold methodsWF; decide,
   c1_route_precedence c1wSt (chars "/users/42") (chars "GET")
     (by unfold methodsWF; decide)⟩

/-- endsWith as a suffix decomposition. -/
theorem listEndsWith_iff (p s : List Char) :
    listEndsWith p s = true ↔ ∃ q, p = q ++ s := by
  constructor
  · intro h
    simp only [listEndsWith, Bool.and_eq_true, decide_eq_true_eq, beq_iff_eq] at h
    exact ⟨p.take (p.length - s.length), by
      conv_lhs => rw [← List.take_append_drop (p.length - s.length) p]
      rw [h.2]⟩
  · rintro ⟨q, rfl⟩
    simp only [listEndsWith, Bool.and_eq_true, decide_eq_true_eq, beq_iff_eq]
    constructor
    · simp
    · have : (q ++ s).length - s.length = q.length := by simp
      rw [this, List.drop_left]

/-- The trimming loop does nothing on an empty path. -/
theorem trimPathF_nil (sep : List Char) (f : Nat) :
    trimPathF sep f [] = [] := by
  cases f with
  | zero => rfl
  | succ f =>
    have hc : ¬(listEndsWith ([] : List Char) sep = true ∧
        sep.length < ([] : List Char).length) := by
      rintro ⟨-, h2⟩
      simp at h2
    show (if listEndsWith ([] : List Char) sep = true ∧
        sep.length < ([] : List Char).length then
      trimPathF sep f (List.take (List.length [] - sep.length) []) else []) = []
    rw [if_neg hc]

/-- The fuel of the trimming loop is irrelevant once it covers the path. -/
theorem trimPathF_irrel (sep : List Char) (hsep : sep ≠ []) :
    ∀ n f1 f2 (path : List Char), path.length ≤ n → path.length ≤ f1 →
      path.length ≤ f2 → trimPathF sep f1 path = trimPathF sep f2 path := by
  have hs1 : 1 ≤ sep.length := by
    cases sep with
    | nil => exact absurd rfl hsep
    | cons a l => simp
  intro n
  induction n with
  | zero =>
    intro f1 f2 path hn _ _
    have hpn : path = [] := List.eq_nil_of_length_eq_zero (by omega)
    subst hpn
    rw [trimPathF_nil, trimPathF_nil]
  | succ n ih =>
    intro f1 f2 path hn h1 h2
    by_cases hz : path.length = 0
    · have hpn : path = [] := List.eq_nil_of_length_eq_zero hz
      subst hpn
      rw [trimPathF_nil, trimPathF_nil]
    · cases f1 with
      | zero => omega
      | succ f1 =>
        cases f2 with
        | zero => omega
        | succ f2 =>
          rw [trimPathF, trimPathF]
          by_cases hc : listEndsWith path sep = true ∧ sep.length < path.length
          · rw [if_pos hc, if_pos hc]
            exact ih f1 f2 _ (by simp only [List.length_take]; omega)
              (by simp only [List.length_take]; omega)
              (by simp only [List.length_take]; omega)
          · rw [if_neg hc, if_neg hc]

/-- One trimming step when the loop condition holds. -/
theorem trimPath_step (sep p : List Char) (h0 : sep ≠ [])
    (h : listEndsWith p sep = true ∧ sep.length < p.length) :
    trimPath sep p = trimPath sep (p.take (p.length - sep.length)) := by
  have hs1 : 1 ≤ sep.length := by
    cases sep with
    | nil => exact absurd rfl h0
    | cons a l => simp
  have hlen : 1 ≤ p.length := by omega
  unfold trimPath
  have step : trimPathF sep p.length p
      = trimPathF sep (p.length - 1) (p.take (p.length - sep.length)) := by
    have hp : p.length = (p.length - 1) + 1 := by omega
    conv_lhs => rw [hp]
    rw [trimPathF, if_pos h]
  rw [step]
  exact trimPathF_irrel sep h0 (p.take (p.length - sep.length)).length _ _ _
    (le_refl _) (by simp only [List.length_take]; omega) (le_refl _)

/-- The trimming loop stops when the condition fails. -/
theorem trimPath_fix (sep p : List Char)
    (h : ¬(listEndsWith p sep = true ∧ sep.length < p.length)) :
    trimPath sep p = p := by
  unfold trimPath
  cases hl : p.length with
  | zero => rfl
  | succ n => rw [trimPathF, if_neg h]

/-- At a stopping point of the loop the path either equals the separator
or no longer ends with it. -/
theorem trim_terminal (sep p : List Char)
    (h : ¬(listEndsWith p sep = true ∧ sep.length < p.length)) :
    p = sep ∨ listEndsWith p sep = false := by
  by_cases hew : listEndsWith p sep = true
  · left
    have hle : sep.length ≤ p.length := by
      have := hew
      simp only [listEndsWith, Bool.and_eq_true, decide_eq_true_eq] at this
      exact this.1
    have hnl : ¬ sep.length < p.length := fun hc => h ⟨hew, hc⟩
    have hlen : p.length = sep.length := by omega
    have := hew
    simp only [listEndsWith, Bool.and_eq_true, beq_iff_eq] at this
    have hd := this.2
    rw [hlen] at hd
    simpa using hd
  · right
    exact Bool.not_eq_true _ ▸ (by simpa using hew)

/-- Full characterization of the trimming loop: it removes some number of
whole trailing copies of the separator, and stops only once the path is the
separator itself or no longer ends with it. -/
theorem trimPath_decomp (sep : List Char) (hsep : sep ≠ []) (p : List Char) :
    ∃ k, p = trimPath sep p ++ repSep sep k ∧
      (trimPath sep p = sep ∨ listEndsWith (trimPath sep p) sep = false) := by
  have main : ∀ n (p : List Char), p.length ≤ n →
      ∃ k, p = trimPath sep p ++ repSep sep k ∧
        (trimPath sep p = sep ∨ listEndsWith (trimPath sep p) sep = false) := by
    intro n
    induction n with
    | zero =>
      intro p hp
      have hpn : p = [] := List.eq_nil_of_length_eq_zero (by omega)
      subst hpn
      have hc : ¬(listEndsWith ([] : List Char) sep = true ∧ sep.length < ([] : List Char).length) := by
        rintro ⟨-, h2⟩
        simp at h2
      rw [trimPath_fix sep [] hc]
      exact ⟨0, by simp [repSep], trim_terminal sep [] hc⟩
    | succ n ih =>
      intro p hp
      by_cases hc : listEndsWith p sep = true ∧ sep.length < p.length
      · have hstep := trimPath_step sep p hsep hc
        obtain ⟨q, hq⟩ := (listEndsWith_iff p sep).mp hc.1
        have htake : p.take (p.length - sep.length) = q := by
          subst hq
          have : (q ++ sep).length - sep.length = q.length := by simp
          rw [this, List.take_left]
        have hlen : (p.take (p.length - sep.length)).length ≤ n := by
          rw [htake]
          have : p.length = q.length + sep.length := by subst hq; simp
          have hs1 : 1 ≤ sep.length := by
            cases sep with
            | nil => exact absurd rfl hsep
            | cons a l => simp
          omega
        obtain ⟨k, hk1, hk2⟩ := ih (p.take (p.length - sep.length)) hlen
        refine ⟨k + 1, ?_, by rw [hstep]; exact hk2⟩
        rw [hstep]
        calc p = q ++ sep := hq
        _ = (p.take (p.length - sep.length)) ++ sep := by rw [htake]
        _ = (trimPath sep (p.take (p.length - sep.length)) ++ repSep sep k) ++ sep := by
              rw [← hk1]
        _ = trimPath sep (p.take (p.length - sep.length)) ++ repSep sep (k + 1) := by
              simp [repSep]
      · rw [trimPath_fix sep p hc]
        exact ⟨0, by simp [repSep], trim_terminal sep p hc⟩
  exact main p.length p (le_refl _)

/-- Every successful route result carries the trimmed path. -/
theorem route_ok_path {T : Type} (st : ODRouterState T)
    (path method : List Char) (res : ODRouterRouteResult T)
    (h : route st path method = Except.ok res) :
    res.path = trimPath st.options.separator path := by
  unfold route at h
  rw [routeLoop_char] at h
  cases h1 : st.routes.find? (fun r =>
      hitB st.options.caseSensitive (trimPath st.options.separator path)
        (upperStr method) r && !r.isProxy) with
  | some r =>
    rw [h1] at h
    cases h
    rfl
  | none =>
    rw [h1] at h
    simp only [Option.orElse] at h
    cases h2 : st.routes.find? (fun r =>
        hitB st.options.caseSensitive (trimPath st.options.separator path)
          (upperStr method) r && r.isProxy) with
    | some r =>
      rw [h2] at h
      simp only [Option.map] at h
      cases h
      rfl
    | none =>
      rw [h2] at h
      simp only [Option.map] at h
      unfold noMatchResult at h
      cases hd : st.defaultRouteObject with
      | some d =>
        rw [hd] at h
        cases h
        rfl
      | none =>
        rw [hd] at h
        cases h

/-- C2: route() normalizes the path by repeatedly removing one trailing
occurrence of the current separator as an atomic unit (all of its
characters at once, also for multi-character separators), only while the
path is longer than the separator, so a path equal to exactly the
separator is preserved; the returned result's path field is this
normalized path. -/
theorem c2_normalization {T : Type} (st : ODRouterState T)
    (hsep : st.options.separator ≠ []) (path method : List Char)
    (res : ODRouterRouteResult T) (h : route st path method = Except.ok res) :
    res.path = trimPath st.options.separator path ∧
    (∃ k, path = res.path ++ repSep st.options.separator k) ∧
    (res.path = st.options.separator ∨
      listEndsWith res.path st.options.separator = false) := by
  have hp := route_ok_path st path method res h
  obtain ⟨k, hk1, hk2⟩ := trimPath_decomp st.options.separator hsep path
  refine ⟨hp, ⟨k, ?_⟩, ?_⟩
  · rw [hp]
    exact hk1
  · rw [hp]
    exact hk2

theorem c2_normalization_witness :
    cexSt.options.separator ≠ [] ∧
    route cexSt (chars "/a//") (chars "GET") = Except.ok c2wRes ∧
    (c2wRes.path = trimPath cexSt.options.separator (chars "/a//") ∧
     (∃ k, chars "/a//" = c2wRes.path ++ repSep cexSt.options.separator k) ∧
     (c2wRes.path = cexSt.options.separator ∨
       listEndsWith c2wRes.path cexSt.options.separator = false)) :=
  ⟨by decide, by decide,
   c2_normalization cexSt (by decide) (chars "/a//") (chars "GET") c2wRes
     (by decide)⟩

/-- Appending one separator to a non-empty path trims away again. -/
theorem trim_append_sep (sep X : List Char) (hsep : sep ≠ []) (hX : X ≠ []) :
    trimPath sep (X ++ sep) = trimPath sep X := by
  have hs1 : 1 ≤ sep.length := by
    cases sep with
    | nil => exact absurd rfl hsep
    | cons a l => simp
  have hX1 : 1 ≤ X.length := by
    cases X with
    | nil => exact absurd rfl hX
    | cons a l => simp
  have hcond : listEndsWith (X ++ sep) sep = true ∧
      sep.length < (X ++ sep).length := by
    refine ⟨(listEndsWith_iff _ _).mpr ⟨X, rfl⟩, ?_⟩
    simp only [List.length_append]
    omega
  have := trimPath_step sep (X ++ sep) hsep hcond
  rw [this]
  have harg : (X ++ sep).length - sep.length = X.length := by
    simp only [List.length_append]
    omega
  rw [harg, List.take_left]

/-- A path not ending with the separator is already trimmed. -/
theorem trim_of_not_endsWith (sep P : List Char)
    (h : listEndsWith P sep = false) : trimPath sep P = P := by
  apply trimPath_fix
  rintro ⟨h1, -⟩
  rw [h] at h1
  cases h1

/-- C5 counterexample: the claim quantifies over every non-root path that
does not end with the separator, but for the empty path the three
requests give different results (the empty path is preserved while the
bare separator is its own normal form), so the claim as stated fails. -/
theorem c5_counterexample :
    (([] : List Char) ≠ cexSt.options.separator) ∧
    listEndsWith [] cexSt.options.separator = false ∧
    route cexSt ([] ++ cexSt.options.separator) (chars "GET")
      ≠ route cexSt [] (chars "GET") := by
  refine ⟨by decide, by decide, by decide⟩

/-- C5 (amended): for every non-empty, non-root path P that does not end
with the separator, route(P), route(P + sep) and route(P + sep + sep)
yield identical results, including for multi-character separators. -/
theorem c5_trailing_separators {T : Type} (st : ODRouterState T)
    (hsep : st.options.separator ≠ []) (P method : List Char) (hne : P ≠ [])
    (hnend : listEndsWith P st.options.separator = false) :
    route st (P ++ st.options.separator) method = route st P method ∧
    route st (P ++ st.options.separator ++ st.options.separator) method
      = route st P method := by
  have e1 : trimPath st.options.separator (P ++ st.options.separator)
      = trimPath st.options.separator P :=
    trim_append_sep st.options.separator P hsep hne
  have e2 : trimPath st.options.separator
      (P ++ st.options.separator ++ st.options.separator)
      = trimPath st.options.separator (P ++ st.options.separator) :=
    trim_append_sep st.options.separator (P ++ st.options.separator) hsep
      (by simp [hne])
  constructor
  · unfold route
    rw [e1]
  · unfold route
    rw [e2, e1]

theorem c5_trailing_separators_witness :
    (chars "/a" ≠ []) ∧
    listEndsWith (chars "/a") cexSt.options.separator = false ∧
    route cexSt (chars "/a" ++ cexSt.options.separator) (chars "GET")
      = route cexSt (chars "/a") (chars "GET") :=
  ⟨by decide, by decide,
   (c5_trailing_separators cexSt (by decide) (chars "/a") (chars "GET")
     (by decide) (by decide)).1⟩

/-- C4: a literal (placeholder-free) registered pattern is compared using
the caseSensitive value current when route() is called, independently of
the registration-time value, so toggling the option later changes literal
matching; a placeholder-bearing pattern has its case rule fixed in the
compiled expression at registration time and a later change of the option
does not affect its matching. -/
theorem c4_case_sensitivity {T : Type} (optsReg optsRegQ : ODRouterOptions)
    (p q : List Char) (ms msq : List (List Char)) (o oq : T) (r rq : IRec T)
    (hp : (toksOf (scanPat p)).isEmpty = true)
    (hq : (toksOf (scanPat q)).isEmpty = false)
    (hcr : compileRoute optsReg p ms o = Except.ok r)
    (hcrq : compileRoute optsRegQ q msq oq = Except.ok rq) :
    (∀ cs path, (recordCaps cs path r).isSome
        = (if cs then p == path else lowerStr p == lowerStr path)) ∧
    matcherFlag rq.matcher = some (!optsRegQ.caseSensitive) ∧
    (∀ cs cs' path, recordCaps cs path rq = recordCaps cs' path rq) := by
  unfold compileRoute at hcr hcrq
  rw [if_pos hp] at hcr
  rw [if_neg (by rw [hq]; exact Bool.false_ne_true)] at hcrq
  cases hcr
  refine ⟨?_, ?_⟩
  · intro cs path
    cases cs with
    | true =>
      by_cases hpq : p = path
      · simp [recordCaps, hpq]
      · simp [recordCaps, hpq]
    | false =>
      by_cases hpq : lowerStr p = lowerStr path
      · simp [recordCaps, hpq]
      · simp [recordCaps, hpq]
  · cases hcol : collectParams (toksOf (scanPat q)) [] with
    | error e =>
      rw [hcol] at hcrq
      cases hcrq
    | ok triple =>
      rw [hcol] at hcrq
      obtain ⟨ps, ints, ibs⟩ := triple
      cases hcrq
      exact ⟨rfl, fun cs cs' path => rfl⟩

theorem c4_case_sensitivity_witness :
    (toksOf (scanPat (chars "/users"))).isEmpty = true ∧
    (toksOf (scanPat (chars "/Users/\x7b#id\x7d"))).isEmpty = false ∧
    compileRoute c4opts (chars "/users") [chars "GET"] 1 = Except.ok c4rStatic ∧
    compileRoute c4opts (chars "/Users/\x7b#id\x7d") [chars "GET"] 2
      = Except.ok c4rCompiled ∧
    (recordCaps false (chars "/USERS") c4rStatic).isSome
      = (if false then chars "/users" == chars "/USERS"
         else lowerStr (chars "/users") == lowerStr (chars "/USERS")) ∧
    matcherFlag c4rCompiled.matcher = some (!c4opts.caseSensitive) ∧
    recordCaps false (chars "/Users/42") c4rCompiled
      = recordCaps true (chars "/Users/42") c4rCompiled :=
  ⟨by decide, by decide, by decide, by decide,
   (c4_case_sensitivity c4opts c4opts (chars "/users")
      (chars "/Users/\x7b#id\x7d") [chars "GET"] [chars "GET"] 1 2 c4rStatic
      c4rCompiled (by decide) (by decide) (by decide) (by decide)).1 false _,
   (c4_case_sensitivity c4opts c4opts (chars "/users")
      (chars "/Users/\x7b#id\x7d") [chars "GET"] [chars "GET"] 1 2 c4rStatic
      c4rCompiled (by decide) (by decide) (by decide) (by decide)).2.1,
   (c4_case_sensitivity c4opts c4opts (chars "/users")
      (chars "/Users/\x7b#id\x7d") [chars "GET"] [chars "GET"] 1 2 c4rStatic
      c4rCompiled (by decide) (by decide) (by decide) (by decide)).2.2 false true _⟩

/-- The parameter-collection loop fails exactly when the token names,
together with the already seen ones, contain a repetition. -/
theorem collectParams_error_iff :
    ∀ (toks : List (List Char)) (seen : List (List Char)), seen.Nodup →
      ((∃ e, collectParams toks seen = Except.error e) ↔
        ¬ (seen ++ toks.map tokName).Nodup) := by
  intro toks
  induction toks with
  | nil =>
    intro seen hseen
    constructor
    · rintro ⟨e, he⟩
      simp [collectParams] at he
    · intro h
      simp at h
      exact absurd hseen h
  | cons t ts ih =>
    intro seen hseen
    by_cases hmem : seen.contains (tokName t)
    · constructor
      · intro _
        intro hnd
        have hin : tokName t ∈ seen := by simpa using hmem
        have := List.disjoint_of_nodup_append hnd
        exact this hin (by simp)
      · intro _
        refine ⟨(), ?_⟩
        simp only [collectParams]
        rw [if_pos hmem]
    · have hnotin : tokName t ∉ seen := by simpa using hmem
      have hseen' : (seen ++ [tokName t]).Nodup := by
        simp [List.nodup_append, hseen, hnotin]
      have hiff := ih (seen ++ [tokName t]) hseen'
      have hre : (seen ++ [tokName t]) ++ ts.map tokName
          = seen ++ (t :: ts).map tokName := by
        simp
      rw [hre] at hiff
      constructor
      · rintro ⟨e, he⟩
        simp only [collectParams] at he
        rw [if_neg hmem] at he
        cases hcol : collectParams ts (seen ++ [tokName t]) with
        | ok triple =>
          rw [hcol] at he
          obtain ⟨a, b, c⟩ := triple
          simp at he
        | error e' =>
          exact hiff.mp ⟨e', hcol⟩
      · intro hnd
        obtain ⟨e', he'⟩ := hiff.mpr hnd
        refine ⟨e', ?_⟩
        simp only [collectParams]
        rw [if_neg hmem, he']

/-- C6: a pattern in which the same parameter name occurs in more than one
placeholder (also across different kind prefixes, since the name is taken
after stripping the kind marker) fails registration with a duplication
error whose message names the offending pattern; the error is raised
before the expression is finalized and the route table is unchanged (the
append to the table is the last step of register and is never reached). -/
theorem c6_duplicate_params {T : Type} (st : ODRouterState T) (p : List Char)
    (ms : List (List Char)) (o : T)
    (hdup : ¬ ((toksOf (scanPat p)).map tokName).Nodup) :
    register st p ms o
      = Except.error (chars "Parameters duplication in the route " ++ p) := by
  have hne : toksOf (scanPat p) ≠ [] := by
    intro h
    rw [h] at hdup
    simp at hdup
  have hcol : ∃ e, collectParams (toksOf (scanPat p)) [] = Except.error e := by
    rw [collectParams_error_iff (toksOf (scanPat p)) [] List.nodup_nil]
    simpa using hdup
  obtain ⟨e, he⟩ := hcol
  unfold register compileRoute
  rw [if_neg (by simpa [List.isEmpty_iff] using hne)]
  rw [he]

theorem c6_duplicate_params_witness :
    (¬ ((toksOf (scanPat (chars "/a/\x7bid\x7d/b/\x7bid\x7d"))).map tokName).Nodup) ∧
    (¬ ((toksOf (scanPat (chars "/a/\x7bid\x7d/b/\x7b#id\x7d"))).map tokName).Nodup) ∧
    register (st0 Nat) (chars "/a/\x7bid\x7d/b/\x7bid\x7d") [chars "GET"] 1
      = Except.error (chars "Parameters duplication in the route /a/\x7bid\x7d/b/\x7bid\x7d") ∧
    register (st0 Nat) (chars "/a/\x7bid\x7d/b/\x7b#id\x7d") [chars "GET"] 1
      = Except.error (chars "Parameters duplication in the route /a/\x7bid\x7d/b/\x7b#id\x7d") :=
  ⟨by decide, by decide,
   c6_duplicate_params (st0 Nat) (chars "/a/\x7bid\x7d/b/\x7bid\x7d")
     [chars "GET"] 1 (by decide),
   c6_duplicate_params (st0 Nat) (chars "/a/\x7bid\x7d/b/\x7b#id\x7d")
     [chars "GET"] 1 (by decide)⟩

/-- C7: when no registered record matches the request eligibly, route()
returns the payload registered via registerDefault in a result with empty
params, no matched record and is_default true; with no default payload
registered it fails with the "route not found" error. -/
theorem c7_default_fallback {T : Type} (st : ODRouterState T) (d : T)
    (path method : List Char)
    (hnone : ∀ r ∈ st.routes,
      hitB st.options.caseSensitive (trimPath st.options.separator path)
        (upperStr method) r = false) :
    route (registerDefault st d) path method
      = Except.ok { path := trimPath st.options.separator path
                    method := upperStr method, params := []
                    route := none, route_object := d, is_default := true } ∧
    (st.defaultRouteObject = none →
      route st path method
        = Except.error (chars "Route not found, default route is not defined")) := by
  have hfind : ∀ q : IRec T → Bool,
      st.routes.find? (fun r =>
        hitB st.options.caseSensitive (trimPath st.options.separator path)
          (upperStr method) r && q r) = none := by
    intro q
    rw [List.find?_eq_none]
    intro r hr
    rw [hnone r hr]
    simp
  constructor
  · have h1 : route (registerDefault st d) path method
        = routeLoop st.options.caseSensitive (trimPath st.options.separator path)
            (upperStr method) (some d) st.routes none := rfl
    rw [h1, routeLoop_char, hfind, hfind]
    simp [Option.orElse, noMatchResult]
  · intro hd
    have h2 : route st path method
        = routeLoop st.options.caseSensitive (trimPath st.options.separator path)
            (upperStr method) st.defaultRouteObject st.routes none := rfl
    rw [h2, routeLoop_char, hfind, hfind]
    simp [Option.orElse, noMatchResult, hd]

theorem c7_default_fallback_witness :
    (∀ r ∈ c7wSt.routes,
      hitB c7wSt.options.caseSensitive
        (trimPath c7wSt.options.separator (chars "/missing"))
        (upperStr (chars "GET")) r = false) ∧
    route (registerDefault c7wSt 9) (chars "/missing") (chars "GET")
      = Except.ok { path := trimPath c7wSt.options.separator (chars "/missing")
                    method := upperStr (chars "GET"), params := []
                    route := none, route_object := 9, is_default := true } ∧
    (c7wSt.defaultRouteObject = none →
      route c7wSt (chars "/missing") (chars "GET")
        = Except.error (chars "Route not found, default route is not defined")) :=
  ⟨by decide,
   (c7_default_fallback c7wSt 9 (chars "/missing") (chars "GET") (by decide)).1,
   (c7_default_fallback c7wSt 9 (chars "/missing") (chars "GET") (by decide)).2⟩

/-- findSome? of an everywhere-none function is none. -/
theorem findSome?_none_of_all {α β : Type} (f : α → Option β) :
    ∀ l : List α, (∀ a ∈ l, f a = none) → l.findSome? f = none := by
  intro l
  induction l with
  | nil => intro _; rfl
  | cons a l ih =>
    intro h
    rw [List.findSome?_cons]
    rw [h a (by simp)]
    exact ih (fun b hb => h b (by simp [hb]))

/-- A single capture group anchored on the whole input matches exactly
when it can consume the input in full: the largest consumption length is
tried first and smaller ones leave a non-empty remainder for the empty
tail of the expression. -/
theorem matchToks_single_group (ci : Bool) (g : GKind) (s : List Char) :
    matchToks ci [RTok.grp g] s
      = if grpTake ci g s.length s = true ∧ s ≠ [] then some [s] else none := by
  by_cases hne : s = []
  · simp [hne, matchToks]
  · have hlen0 : 0 < s.length := List.length_pos.mpr hne
    have hu : matchToks ci [RTok.grp g] s
        = (List.range s.length).findSome? (fun i =>
            if grpTake ci g (s.length - i) s then
              match matchToks ci [] (s.drop (s.length - i)) with
              | some caps => some (s.take (s.length - i) :: caps)
              | none => none
            else none) := rfl
    rw [hu]
    have hpred : s.length = (s.length - 1) + 1 := by omega
    have hrange : List.range s.length
        = 0 :: List.map Nat.succ (List.range (s.length - 1)) := by
      conv_lhs => rw [hpred]
      rw [List.range_succ_eq_map]
    rw [hrange, List.findSome?_cons]
    have hdrop0 : s.drop (s.length - 0) = [] := by
      simp [List.drop_length]
    cases hgt : grpTake ci g s.length s with
    | true =>
      have h0 : (if grpTake ci g (s.length - 0) s = true then
          match matchToks ci [] (s.drop (s.length - 0)) with
          | some caps => some (s.take (s.length - 0) :: caps)
          | none => none
        else none) = some [s] := by
        simp only [Nat.sub_zero]
        rw [if_pos hgt]
        rw [show List.drop s.length s = ([] : List Char) from by simp]
        simp [matchToks, List.take_length]
      rw [h0, if_pos ⟨rfl, hne⟩]
    | false =>
      have h0 : (if grpTake ci g (s.length - 0) s = true then
          match matchToks ci [] (s.drop (s.length - 0)) with
          | some caps => some (s.take (s.length - 0) :: caps)
          | none => none
        else none) = none := by
        simp only [Nat.sub_zero]
        rw [if_neg (by rw [hgt]; exact Bool.false_ne_true)]
      rw [h0, if_neg (by rintro ⟨h1, -⟩; exact absurd h1 (by simp))]
      apply findSome?_none_of_all
      intro i hi
      simp only [List.mem_map, List.mem_range] at hi
      obtain ⟨j, hj, rfl⟩ := hi
      have hdrop : s.drop (s.length - (j + 1)) ≠ [] := by
        intro hd
        have := List.drop_eq_nil_iff_le.mp hd
        omega
      have hmt : matchToks ci [] (s.drop (s.length - (j + 1))) = none := by
        simp only [matchToks]
        rw [if_neg]
        simpa [List.isEmpty_iff] using hdrop
      rw [hmt]
      cases grpTake ci g (s.length - (j + 1)) s <;> simp

/-- The string-placeholder group can consume the whole input exactly when
the separator does not occur in it (under the compiled case rule) and
every character is accepted by the dot. -/
theorem grpTake_full_seg (ci : Bool) (sep : List Char) (hsep : sep ≠ []) :
    ∀ s : List Char, grpTake ci (GKind.seg sep) s.length s = true ↔
      (containsSubCI ci sep s = false ∧ ∀ c ∈ s, jsDotB c = true) := by
  intro s
  induction s with
  | nil =>
    simp only [List.length_nil, grpTake, containsSubCI, List.not_mem_nil]
    cases sep with
    | nil => exact absurd rfl hsep
    | cons a as => simp [isPrefixCIB]
  | cons c rest ih =>
    constructor
    · intro h
      simp only [List.length_cons, grpTake, List.tail_cons, Bool.and_eq_true] at h
      obtain ⟨hpos, htake⟩ := h
      simp only [grpPosOk, Bool.and_eq_true, Bool.not_eq_true'] at hpos
      obtain ⟨hnp, hdot⟩ := hpos
      obtain ⟨hcs, hall⟩ := ih.mp htake
      refine ⟨by simp [containsSubCI, hnp, hcs], ?_⟩
      intro x hx
      rcases List.mem_cons.mp hx with rfl | hx
      · exact hdot
      · exact hall x hx
    · rintro ⟨hcs, hall⟩
      simp only [containsSubCI, Bool.or_eq_false_iff] at hcs
      obtain ⟨hnp, hcs⟩ := hcs
      simp only [List.length_cons, grpTake, List.tail_cons, Bool.and_eq_true]
      refine ⟨?_, ih.mpr ⟨hcs, fun x hx => hall x (by simp [hx])⟩⟩
      simp only [grpPosOk, Bool.and_eq_true, Bool.not_eq_true']
      exact ⟨hnp, hall c (by simp)⟩

/-- C3 counterexample: the group compiled for a string placeholder does
not accept every non-empty string free of the separator.  First input: a
string containing a line terminator is rejected even though the separator
does not occur in it (the dot of the compiled expression excludes line
terminators).  Second input: with the case-insensitive flag (the default),
a string containing only an upper-case variant of the separator is
rejected although the separator itself does not occur in it. -/
theorem c3_counterexample :
    ((chars "a\nb" ≠ []) ∧
      containsSubCI false (chars "/") (chars "a\nb") = false ∧
      segGroupMatch false (chars "/") (chars "a\nb") = false) ∧
    ((chars "A" ≠ []) ∧
      containsSubCI false (chars "a") (chars "A") = false ∧
      segGroupMatch true (chars "a") (chars "A") = false) := by
  refine ⟨⟨by decide, by decide, by decide⟩, ⟨by decide, by decide, by decide⟩⟩

/-- C3 (amended): the capture group compiled for a string-kind placeholder
matches exactly the non-empty strings of non-line-terminator characters in
which the configured separator does not occur as a contiguous substring
(case-insensitively when the expression was compiled with the i flag); a
multi-character separator is excluded as an atomic token, so the group may
still contain individual characters of the separator, just not the full
separator sequence. -/
theorem c3_segment_group (ci : Bool) (sep s : List Char) (hsep : sep ≠ []) :
    segGroupMatch ci sep s = true ↔
      (s ≠ [] ∧ (∀ c ∈ s, jsDotB c = true) ∧
        containsSubCI ci sep s = false) := by
  unfold segGroupMatch
  rw [matchToks_single_group]
  constructor
  · intro h
    by_cases hcond : grpTake ci (GKind.seg sep) s.length s = true ∧ s ≠ []
    · obtain ⟨h1, h2⟩ := hcond
      obtain ⟨hcs, hall⟩ := (grpTake_full_seg ci sep hsep s).mp h1
      exact ⟨h2, hall, hcs⟩
    · rw [if_neg hcond] at h
      simp at h
  · rintro ⟨h1, h2, h3⟩
    rw [if_pos ⟨(grpTake_full_seg ci sep hsep s).mpr ⟨h3, h2⟩, h1⟩]
    rfl

theorem c3_segment_group_witness :
    (chars "ab" ≠ []) ∧
    (segGroupMatch true (chars "ab") (chars "ba") = true ↔
      (chars "ba" ≠ [] ∧ (∀ c ∈ chars "ba", jsDotB c = true) ∧
        containsSubCI true (chars "ab") (chars "ba") = false)) ∧
    segGroupMatch true (chars "ab") (chars "ba") = true :=
  ⟨by decide, c3_segment_group true (chars "ab") (chars "ba") (by decide),
   by decide⟩

/-- findSome? succeeds only through one of the list elements. -/
theorem findSome?_some_ex {α β : Type} (f : α → Option β) :
    ∀ (l : List α) (b : β), l.findSome? f = some b → ∃ a ∈ l, f a = some b := by
  intro l
  induction l with
  | nil => intro b h; cases h
  | cons a l ih =>
    intro b h
    rw [List.findSome?_cons] at h
    cases hf : f a with
    | some c =>
      rw [hf] at h
      cases h
      exact ⟨a, by simp, hf⟩
    | none =>
      rw [hf] at h
      obtain ⟨x, hx, hfx⟩ := ih b h
      exact ⟨x, by simp [hx], hfx⟩

/-- The integer group only consumes decimal digits. -/
theorem grpTake_digits (ci : Bool) :
    ∀ (k : Nat) (s : List Char), grpTake ci GKind.int k s = true →
      ∀ c ∈ s.take k, c.isDigit = true := by
  intro k
  induction k with
  | zero => intro s _ c hc; simp at hc
  | succ k ih =>
    intro s h c hc
    cases s with
    | nil => simp at hc
    | cons a rest =>
      simp only [grpTake, Bool.and_eq_true, List.tail_cons] at h
      obtain ⟨hpos, htake⟩ := h
      simp only [grpPosOk] at hpos
      rcases List.mem_cons.mp (by simpa using hc) with rfl | hcm
      · exact hpos
      · exact ih rest htake c hcm

/-- Soundness of the capture list: a successful match produces one capture
per group, in order, each non-empty and all-digits for integer groups. -/
theorem matchToks_sound (ci : Bool) :
    ∀ (toks : List RTok) (s : List Char) (caps : List (List Char)),
      matchToks ci toks s = some caps →
      List.Forall₂ capOk (grpsOf toks) caps := by
  intro toks
  induction toks with
  | nil =>
    intro s caps h
    simp only [matchToks] at h
    split at h
    · cases h
      exact List.Forall₂.nil
    · cases h
  | cons t ts ih =>
    cases t with
    | lit l =>
      intro s caps h
      simp only [matchToks] at h
      split at h
      · exact ih _ _ h
      · cases h
    | grp g =>
      intro s caps h
      simp only [matchToks] at h
      obtain ⟨i, hi, hfi⟩ := findSome?_some_ex _ _ _ h
      simp only [List.mem_range] at hi
      split at hfi
      · rename_i hgt
        cases hmm : matchToks ci ts (s.drop (s.length - i)) with
        | some capsTail =>
          rw [hmm] at hfi
          cases hfi
          have hk1 : 1 ≤ s.length - i := by omega
          have htne : s.take (s.length - i) ≠ [] := by
            intro hnil
            have : (s.take (s.length - i)).length = 0 := by rw [hnil]; rfl
            rw [List.length_take] at this
            omega
          refine List.Forall₂.cons ⟨htne, ?_⟩ (ih _ _ hmm)
          intro hgint c hc
          rw [hgint] at hgt
          exact grpTake_digits ci (s.length - i) s hgt c hc
        | none =>
          rw [hmm] at hfi
          cases hfi
      · cases hfi

/-- getD version of Forall₂ extraction. -/
theorem forall2_getD {α β : Type} (R : α → β → Prop) (d1 : α) (d2 : β) :
    ∀ (l1 : List α) (l2 : List β), List.Forall₂ R l1 l2 →
      ∀ i, i < l2.length → R (l1.getD i d1) (l2.getD i d2) := by
  intro l1 l2 h
  induction h with
  | nil => intro i hi; simp at hi
  | cons hR hrest ih =>
    intro i hi
    cases i with
    | zero => simpa using hR
    | succ n =>
      simp only [List.getD_cons_succ]
      exact ih n (by simpa using hi)

/-- getD through map below the length. -/
theorem getD_map_lt {α β : Type} (f : α → β) (d : β) (da : α) :
    ∀ (l : List α) (i : Nat), i < l.length →
      (l.map f).getD i d = f (l.getD i da) := by
  intro l
  induction l with
  | nil => intro i hi; simp at hi
  | cons a l ih =>
    intro i hi
    cases i with
    | zero => simp
    | succ n =>
      simp only [List.map_cons, List.getD_cons_succ]
      exact ih n (by simpa using hi)

/-- The kinds of a compiled token list are the kinds of the placeholder
tokens, in order. -/
theorem grpsOf_compile (sep : List Char) :
    ∀ segs : List Seg,
      grpsOf (segs.map (segToTok sep)) = (toksOf segs).map (tokKind sep) := by
  intro segs
  induction segs with
  | nil => rfl
  | cons sg segs ih =>
    cases sg with
    | lit c =>
      simp only [List.map_cons, segToTok, toksOf, List.filterMap_cons, grpsOf]
      simpa [grpsOf, toksOf] using ih
    | tok t =>
      simp only [List.map_cons, segToTok, toksOf, List.filterMap_cons]
      by_cases h1 : tokIsInt t = true
      · simpa [grpsOf, toksOf, tokKind, h1] using ih
      · by_cases h2 : tokIsGreedy t = true
        · simpa [grpsOf, toksOf, tokKind, h1, h2] using ih
        · simpa [grpsOf, toksOf, tokKind, h1, h2] using ih

/-- Shape of a successful parameter collection: names and integer flags
are the per-token name and kind, in token order. -/
theorem collectParams_shape :
    ∀ (toks : List (List Char)) (seen ps ints : List (List Char))
      (ibs : List Bool),
      collectParams toks seen = Except.ok (ps, ints, ibs) →
      ps = toks.map tokName ∧ ibs = toks.map tokIsInt := by
  intro toks
  induction toks with
  | nil =>
    intro seen ps ints ibs h
    simp only [collectParams] at h
    cases h
    exact ⟨rfl, rfl⟩
  | cons t ts ih =>
    intro seen ps ints ibs h
    simp only [collectParams] at h
    split at h
    · cases h
    · cases hcol : collectParams ts (seen ++ [tokName t]) with
      | error e =>
        rw [hcol] at h
        cases h
      | ok triple =>
        rw [hcol] at h
        obtain ⟨ps', ints', ibs'⟩ := triple
        cases h
        obtain ⟨hps, hibs⟩ := ih _ _ _ _ hcol
        exact ⟨by rw [hps]; rfl, by rw [hibs]; rfl⟩

/-- The keys of the decoded params map are the parameter names in order. -/
theorem buildParams_fst :
    ∀ (caps : List (List Char)) (ps : List (List Char)) (ibs : List Bool),
      ps.length = caps.length → ibs.length = caps.length →
      ((ps.zip (ibs.zip caps)).map (fun nv =>
        (nv.1, if nv.2.1 then parseIntJS nv.2.2
               else PVal.str nv.2.2))).map Prod.fst = ps := by
  intro caps
  induction caps with
  | nil =>
    intro ps ibs h1 h2
    have : ps = [] := List.eq_nil_of_length_eq_zero (by simpa using h1)
    subst this
    rfl
  | cons cap caps ih =>
    intro ps ibs h1 h2
    cases ps with
    | nil => simp at h1
    | cons p ps =>
      cases ibs with
      | nil => simp at h2
      | cons b ibs =>
        simp only [List.zip_cons_cons, List.map_cons, List.map_map]
        have := ih ps ibs (by simpa using h1) (by simpa using h2)
        simp only [List.map_map] at this
        simp [this]

/-- The i-th entry of the decoded params map. -/
theorem buildParams_getD :
    ∀ (caps : List (List Char)) (ps : List (List Char)) (ibs : List Bool)
      (i : Nat), i < caps.length → ps.length = caps.length →
      ibs.length = caps.length →
      ((ps.zip (ibs.zip caps)).map (fun nv =>
        (nv.1, if nv.2.1 then parseIntJS nv.2.2
               else PVal.str nv.2.2))).getD i ([], PVal.str [])
        = (ps.getD i [],
           if ibs.getD i false = true then
             parseIntJS (caps.getD i [])
           else PVal.str (caps.getD i [])) := by
  intro caps
  induction caps with
  | nil => intro ps ibs i hi _ _; simp at hi
  | cons cap caps ih =>
    intro ps ibs i hi h1 h2
    cases ps with
    | nil => simp at h1
    | cons p ps =>
      cases ibs with
      | nil => simp at h2
      | cons b ibs =>
        cases i with
        | zero => simp
        | succ n =>
          simp only [List.zip_cons_cons, List.map_cons, List.getD_cons_succ]
          exact ih ps ibs n (by simpa using hi) (by simpa using h1)
            (by simpa using h2)

/-- parseInt is exact on values up to 2^53. -/
theorem parseIntJS_small (s : List Char)
    (h : digitsVal s ≤ Nat.pow 2 53) :
    parseIntJS s = PVal.int (digitsVal s) := by
  simp only [parseIntJS]
  rw [if_pos h]

/-- C8 (amended): on a successful match of a compiled pattern — stated for
separators free of brace characters, where the token translation coincides
with the source's sequential replace passes — there is one capture per
placeholder; integer-placeholder captures consist of one or more decimal
digits and, whenever the value of the digits is at most 2^53 (exactly
representable in the binary64 Number parseInt returns), decode to that
base-10 value; string and greedy captures are kept as the extracted
substrings, and the params map is keyed by the placeholder names in
left-to-right order. -/
theorem c8_params_decoding {T : Type} (opts : ODRouterOptions)
    (pat : List Char) (ms : List (List Char)) (o : T) (r : IRec T)
    (tks : List RTok) (ci : Bool) (path : List Char)
    (caps : List (List Char))
    (hsep : Char.ofNat 123 ∉ opts.separator ∧ Char.ofNat 125 ∉ opts.separator)
    (hc : compileRoute opts pat ms o = Except.ok r)
    (hm : r.matcher = Matcher.re tks ci)
    (hmt : matchToks ci tks path = some caps) :
    caps.length = r.params.length ∧
    (buildParams r caps).map Prod.fst = r.params ∧
    ∀ i, i < caps.length →
      ((r.integerParams.getD i false = true →
          caps.getD i [] ≠ [] ∧ (∀ c ∈ caps.getD i [], c.isDigit = true) ∧
          (digitsVal (caps.getD i []) ≤ Nat.pow 2 53 →
            (buildParams r caps).getD i ([], PVal.str [])
              = (r.params.getD i [], PVal.int (digitsVal (caps.getD i []))))) ∧
       (r.integerParams.getD i false = false →
          (buildParams r caps).getD i ([], PVal.str [])
            = (r.params.getD i [], PVal.str (caps.getD i [])))) := by
  unfold compileRoute at hc
  by_cases hemp : (toksOf (scanPat pat)).isEmpty = true
  · rw [if_pos hemp] at hc
    cases hc
    cases hm
  · rw [if_neg hemp] at hc
    cases hcol : collectParams (toksOf (scanPat pat)) [] with
    | error e =>
      rw [hcol] at hc
      cases hc
    | ok triple =>
      rw [hcol] at hc
      obtain ⟨ps, ints, ibs⟩ := triple
      cases hc
      obtain ⟨htks, hci⟩ := Matcher.re.inj hm.symm
      obtain ⟨hps, hibs⟩ := collectParams_shape _ _ _ _ _ hcol
      subst hps hibs
      rw [htks, hci] at hmt
      have hsound := matchToks_sound (!opts.caseSensitive) _ _ _ hmt
      rw [grpsOf_compile] at hsound
      have hlen := List.Forall₂.length_eq hsound
      simp only [List.length_map] at hlen
      have hlenps : ((toksOf (scanPat pat)).map tokName).length = caps.length := by
        simp [← hlen]
      have hlenibs : ((toksOf (scanPat pat)).map tokIsInt).length = caps.length := by
        simp [← hlen]
      refine ⟨by simpa using hlenps.symm, ?_, ?_⟩
      · exact buildParams_fst caps _ _ hlenps hlenibs
      · intro i hi
        have hitok : i < (toksOf (scanPat pat)).length := by omega
        have hcap := forall2_getD capOk (GKind.greedy) [] _ _ hsound i hi
        rw [getD_map_lt (tokKind opts.separator) GKind.greedy [] _ i hitok] at hcap
        have hib : ((toksOf (scanPat pat)).map tokIsInt).getD i false
            = tokIsInt ((toksOf (scanPat pat)).getD i []) :=
          getD_map_lt tokIsInt false [] _ i hitok
        have hbp := buildParams_getD caps _ _ i hi hlenps hlenibs
        constructor
        · intro hint0
          have hint1 : tokIsInt ((toksOf (scanPat pat)).getD i []) = true := by
            rw [← hib]
            exact hint0
          have htk : tokKind opts.separator ((toksOf (scanPat pat)).getD i [])
              = GKind.int := by
            simp only [tokKind]
            rw [if_pos hint1]
          rw [htk] at hcap
          refine ⟨hcap.1, hcap.2 rfl, ?_⟩
          intro hbound
          simp only [buildParams]
          rw [hbp, hint0, parseIntJS_small _ hbound]
          simp
        · intro hint0
          simp only [buildParams]
          rw [hbp, hint0]
          simp

theorem c8_params_decoding_witness :
    (Char.ofNat 123 ∉ (st0 Nat).options.separator ∧
     Char.ofNat 125 ∉ (st0 Nat).options.separator) ∧
    compileRoute (st0 Nat).options (chars "/users/\x7b#id\x7d/\x7baction\x7d")
        [chars "GET"] 5 = Except.ok c8rec ∧
    c8rec.matcher = Matcher.re c8tks true ∧
    matchToks true c8tks (chars "/users/007/go") = some c8caps ∧
    digitsVal (chars "007") = 7 ∧
    digitsVal (c8caps.getD 0 []) ≤ Nat.pow 2 53 ∧
    (c8caps.getD 0 [] ≠ [] ∧ (∀ c ∈ c8caps.getD 0 [], c.isDigit = true) ∧
      (buildParams c8rec c8caps).getD 0 ([], PVal.str [])
        = (c8rec.params.getD 0 [], PVal.int (digitsVal (c8caps.getD 0 [])))) :=
  ⟨by decide, by decide, by decide, by decide, by decide, by decide,
   (fun h => ⟨h.1, h.2.1, h.2.2 (by decide)⟩)
     (((c8_params_decoding (st0 Nat).options
        (chars "/users/\x7b#id\x7d/\x7baction\x7d") [chars "GET"] 5 c8rec c8tks
        true (chars "/users/007/go") c8caps (by decide) (by decide) (by decide)
        (by decide)).2.2 0 (by decide)).1 (by decide))⟩

/-- C8 counterexample to the unamended claim: parseInt returns a binary64
Number, so an integer capture above 2^53 does not decode to the exact
base-10 value of its digits: "/users/9007199254740993" matches the
integer placeholder, the digits denote 2^53 + 1, but the decoded param is
the rounded double 2^53 = 9007199254740992. -/
theorem c8_counterexample :
    compileRoute (st0 Nat).options (chars "/users/\x7b#id\x7d") [chars "GET"] 6
      = Except.ok c8bigRec ∧
    c8bigRec.matcher = Matcher.re c8bigTks true ∧
    matchToks true c8bigTks (chars "/users/9007199254740993")
      = some [chars "9007199254740993"] ∧
    digitsVal (chars "9007199254740993") = 9007199254740993 ∧
    buildParams c8bigRec [chars "9007199254740993"]
      = [(chars "id", PVal.int 9007199254740992)] ∧
    PVal.int 9007199254740992
      ≠ PVal.int (digitsVal (chars "9007199254740993")) :=
  ⟨by decide, by decide, by decide, by decide, by decide, by decide⟩

/-- Dropping the taken prefix of takeWhile leaves dropWhile. -/
theorem drop_len_takeWhile (f : Char → Bool) :
    ∀ l : List Char, l.drop (l.takeWhile f).length = l.dropWhile f := by
  intro l
  induction l with
  | nil => rfl
  | cons c rest ih =>
    cases hf : f c with
    | true => simpa [List.takeWhile_cons, List.dropWhile_cons, hf] using ih
    | false => simp [List.takeWhile_cons, List.dropWhile_cons, hf]

/-- Elements of takeWhile satisfy the test. -/
theorem mem_takeWhile_test (f : Char → Bool) :
    ∀ (l : List Char) (c : Char), c ∈ l.takeWhile f → f c = true := by
  intro l
  induction l with
  | nil => intro c hc; simp at hc
  | cons a rest ih =>
    intro c hc
    cases hf : f a with
    | true =>
      rw [List.takeWhile_cons, hf] at hc
      rcases List.mem_cons.mp hc with rfl | hc
      · exact hf
      · exact ih c hc
    | false =>
      rw [List.takeWhile_cons, hf] at hc
      simp at hc

/-- takeWhile stops exactly at the first failing character. -/
theorem takeWhile_append_all (f : Char → Bool) (y : Char) (rest : List Char)
    (hy : f y = false) :
    ∀ w : List Char, (∀ c ∈ w, f c = true) →
      (w ++ y :: rest).takeWhile f = w := by
  intro w
  induction w with
  | nil => intro _; simp [List.takeWhile_cons, hy]
  | cons c w ih =>
    intro hall
    have hc : f c = true := hall c (by simp)
    have ihh := ih (fun x hx => hall x (by simp [hx]))
    simp [List.cons_append, List.takeWhile_cons, hc, ihh]

/-- A placeholder occurrence survives prepending a character. -/
theorem hasPlaceholder_cons (c : Char) (rest : List Char)
    (h : hasPlaceholder rest) : hasPlaceholder (c :: rest) := by
  obtain ⟨pre, w, post, heq, hw, hall⟩ := h
  exact ⟨c :: pre, w, post, by rw [heq]; rfl, hw, hall⟩

/-- Soundness of the scan: a found token yields a placeholder occurrence. -/
theorem scanPatF_sound :
    ∀ (fuel : Nat) (p : List Char), toksOf (scanPatF fuel p) ≠ [] →
      hasPlaceholder p := by
  intro fuel
  induction fuel with
  | zero => intro p h; exact absurd rfl h
  | succ fuel ih =>
    intro p h
    cases p with
    | nil => exact absurd rfl h
    | cons c rest =>
      by_cases hc : (c == '\x7b') = true
      · have hceq : c = '\x7b' := by simpa using hc
        simp only [scanPatF, hc, if_true] at h
        split at h
        · rename_i tail heqd
          by_cases hrun : (rest.takeWhile isParamChar).isEmpty = true
          · rw [if_pos hrun] at h
            simp only [toksOf, List.filterMap_cons] at h
            exact hasPlaceholder_cons c rest (ih rest h)
          · subst hceq
            rename_i heqd
            refine ⟨[], rest.takeWhile isParamChar, tail, ?_, ?_, ?_⟩
            · have hsplit : rest
                  = rest.takeWhile isParamChar ++ ('\x7d' :: tail) := by
                conv_lhs => rw [← List.takeWhile_append_dropWhile
                  (p := isParamChar) (l := rest)]
                rw [← drop_len_takeWhile isParamChar rest, heqd]
              conv_lhs => rw [hsplit]
              rfl
            · simpa [List.isEmpty_iff] using hrun
            · intro x hx
              exact mem_takeWhile_test isParamChar rest x hx
        · rename_i heqd
          simp only [toksOf, List.filterMap_cons] at h
          exact hasPlaceholder_cons c rest (ih rest h)
      · simp only [scanPatF, hc, if_false] at h
        simp only [toksOf, List.filterMap_cons] at h
        exact hasPlaceholder_cons c rest (ih rest h)

/-- dropWhile jumps over an all-true prefix and stops at a failing head. -/
theorem dropWhile_append_all (f : Char → Bool) (y : Char) (rest : List Char)
    (hy : f y = false) :
    ∀ w : List Char, (∀ c ∈ w, f c = true) →
      (w ++ y :: rest).dropWhile f = y :: rest := by
  intro w
  induction w with
  | nil => intro _; simp [List.dropWhile_cons, hy]
  | cons c w ih =>
    intro hall
    have hc : f c = true := hall c (by simp)
    rw [List.cons_append, List.dropWhile_cons_of_pos (by simpa using hc)]
    exact ih (fun x hx => hall x (by simp [hx]))

/-- Completeness of the scan: a placeholder occurrence guarantees the scan
finds some token (with enough fuel). -/
theorem scanPatF_complete :
    ∀ (fuel : Nat) (p : List Char), p.length ≤ fuel → hasPlaceholder p →
      toksOf (scanPatF fuel p) ≠ [] := by
  intro fuel
  induction fuel with
  | zero =>
    intro p hl hp
    obtain ⟨pre, w, post, heq, -, -⟩ := hp
    have : p.length = 0 := by omega
    rw [heq] at this
    simp at this
  | succ fuel ih =>
    intro p hl hp
    cases p with
    | nil =>
      obtain ⟨pre, w, post, heq, -, -⟩ := hp
      simp at heq
    | cons c rest =>
      obtain ⟨pre, w, post, heq, hw, hall⟩ := hp
      cases pre with
      | nil =>
        simp only [List.nil_append] at heq
        obtain ⟨rfl, hrest⟩ := List.cons.inj heq
        have hrun : rest.takeWhile isParamChar = w := by
          rw [hrest]
          exact takeWhile_append_all isParamChar '\x7d' post (by decide) w hall
        have hdrop : rest.drop (rest.takeWhile isParamChar).length
            = '\x7d' :: post := by
          rw [drop_len_takeWhile isParamChar rest, hrest]
          exact dropWhile_append_all isParamChar '\x7d' post (by decide) w hall
        simp only [scanPatF, show (('\x7b' == '\x7b') = true) from rfl, if_true]
        split
        · rw [if_neg (by
            rw [hrun]
            simpa [List.isEmpty_iff] using hw)]
          simp [toksOf]
        · rename_i hno
          exact absurd hdrop (hno post)
      | cons c0 pre' =>
        have hrest : rest = pre' ++ '\x7b' :: (w ++ ('\x7d' :: post)) :=
          (List.cons.inj heq).2
        have hrp : hasPlaceholder rest := ⟨pre', w, post, hrest, hw, hall⟩
        have hlen : rest.length ≤ fuel := by
          simp only [List.length_cons] at hl
          omega
        have hne := ih rest hlen hrp
        by_cases hc : (c == '\x7b') = true
        · simp only [scanPatF, hc, if_true]
          split
          · by_cases hrun : (rest.takeWhile isParamChar).isEmpty = true
            · rw [if_pos hrun]
              simpa [toksOf] using hne
            · rw [if_neg hrun]
              simp [toksOf]
          · simpa [toksOf] using hne
        · simp only [scanPatF, hc, if_false]
          simpa [toksOf] using hne

/-- C10: when every brace-delimited token of the pattern has inner text
outside the placeholder alphabet (or is empty), register treats the whole
pattern as a literal: compilation succeeds with no recorded parameters,
the matcher is the verbatim pattern text (braces included) compared
whole-string against the normalized path under the current case rule, and
the params map of any match is empty. -/
theorem c10_literal_fallback {T : Type} (opts : ODRouterOptions)
    (p : List Char) (ms : List (List Char)) (o : T)
    (h : ¬ hasPlaceholder p) :
    (compileRoute opts p ms o).map (fun r => r.matcher)
      = Except.ok (Matcher.str p) ∧
    (compileRoute opts p ms o).map (fun r => r.params) = Except.ok [] ∧
    (compileRoute opts p ms o).map (fun r => r.integers) = Except.ok [] ∧
    (∀ r, compileRoute opts p ms o = Except.ok r →
      (∀ caps, buildParams r caps = []) ∧
      (∀ cs path, recordCaps cs path r
        = (if (if cs then p == path else lowerStr p == lowerStr path)
           then some [] else none))) := by
  have htoks : toksOf (scanPat p) = [] := by
    by_cases ht : toksOf (scanPat p) = []
    · exact ht
    · exact absurd (scanPatF_sound p.length p ht) h
  have hemp : (toksOf (scanPat p)).isEmpty = true := by
    rw [htoks]
    rfl
  unfold compileRoute
  rw [if_pos hemp]
  refine ⟨rfl, rfl, rfl, ?_⟩
  intro r hr
  cases hr
  constructor
  · intro caps
    rfl
  · intro cs path
    rfl

theorem c10_literal_fallback_witness :
    (compileRoute (st0 Nat).options (chars "/x/\x7ba b\x7d") [chars "GET"] 3).map
      (fun r => r.matcher) = Except.ok (Matcher.str (chars "/x/\x7ba b\x7d")) ∧
    (compileRoute (st0 Nat).options (chars "/x/\x7ba b\x7d") [chars "GET"] 3).map
      (fun r => r.params) = Except.ok [] ∧
    ((∀ caps, buildParams c10rec caps = []) ∧
      (∀ cs path, recordCaps cs path c10rec
        = (if (if cs then chars "/x/\x7ba b\x7d" == path
               else lowerStr (chars "/x/\x7ba b\x7d") == lowerStr path)
           then some [] else none))) ∧
    recordCaps false (chars "/X/\x7bA B\x7d") c10rec = some [] :=
  have hnp : ¬ hasPlaceholder (chars "/x/\x7ba b\x7d") := fun hp =>
    absurd rfl (scanPatF_complete (chars "/x/\x7ba b\x7d").length
      (chars "/x/\x7ba b\x7d") (le_refl _) hp)
  ⟨(c10_literal_fallback (st0 Nat).options (chars "/x/\x7ba b\x7d")
      [chars "GET"] 3 hnp).1,
   (c10_literal_fallback (st0 Nat).options (chars "/x/\x7ba b\x7d")
      [chars "GET"] 3 hnp).2.1,
   (c10_literal_fallback (st0 Nat).options (chars "/x/\x7ba b\x7d")
      [chars "GET"] 3 hnp).2.2.2 c10rec (by decide),
   by decide⟩

/-- getD left of an append. -/
theorem getD_append_lt {α : Type} (d : α) :
    ∀ (l ext : List α) (i : Nat), i < l.length →
      (l ++ ext).getD i d = l.getD i d := by
  intro l
  induction l with
  | nil => intro ext i hi; simp at hi
  | cons a l ih =>
    intro ext i hi
    cases i with
    | zero => rfl
    | succ n =>
      simp only [List.cons_append, List.getD_cons_succ]
      exact ih ext n (by simpa using hi)

/-- getD right of an append. -/
theorem getD_append_ge {α : Type} (d : α) :
    ∀ (l ext : List α) (i : Nat), l.length ≤ i →
      (l ++ ext).getD i d = ext.getD (i - l.length) d := by
  intro l
  induction l with
  | nil => intro ext i _; simp
  | cons a l ih =>
    intro ext i hi
    cases i with
    | zero => simp at hi
    | succ n =>
      simp only [List.cons_append, List.getD_cons_succ, List.length_cons]
      rw [ih ext n (by simpa using hi)]
      congr 1
      omega

/-- getD is unchanged by a set at a different index. -/
theorem getD_set_ne {α : Type} (d : α) :
    ∀ (l : List α) (j : Nat) (v : α) (i : Nat), i ≠ j →
      (l.set j v).getD i d = l.getD i d := by
  intro l
  induction l with
  | nil => intro j v i _; simp
  | cons a l ih =>
    intro j v i hij
    cases j with
    | zero =>
      cases i with
      | zero => exact absurd rfl hij
      | succ n => rfl
    | succ m =>
      cases i with
      | zero => rfl
      | succ n =>
        simp only [List.set_cons_succ, List.getD_cons_succ]
        exact ih m v n (by omega)

/-- The clone denotes the same value-level record as the original. -/
theorem viewRec_clone {T : Type} (heap : List HCell) (r : HRec T) :
    viewRec (hcloneRouteRecord heap r).1 (hcloneRouteRecord heap r).2
      = viewRec heap r := by
  unfold hcloneRouteRecord viewRec
  simp only []
  congr 1
  · unfold heapMat
    rw [getD_append_ge _ heap _ heap.length (le_refl _), Nat.sub_self]
    rfl
  · unfold heapStrs
    rw [getD_append_ge _ heap _ (heap.length + 1) (by omega),
      Nat.add_sub_cancel_left]
    rfl
  · unfold heapStrs
    rw [getD_append_ge _ heap _ (heap.length + 2) (by omega),
      Nat.add_sub_cancel_left]
    rfl
  · unfold heapStrs
    rw [getD_append_ge _ heap _ (heap.length + 3) (by omega),
      Nat.add_sub_cancel_left]
    rfl

/-- A record whose references are inside the original heap denotes the
same value after extending the heap and mutating any cell at or past the
original length. -/
theorem viewRec_stable {T : Type} (heap ext : List HCell) (j : Nat)
    (v : HCell) (r : HRec T) (hr : ∀ i ∈ recRefs r, i < heap.length)
    (hj : heap.length ≤ j) :
    viewRec ((heap ++ ext).set j v) r = viewRec heap r := by
  have hread : ∀ i, i < heap.length →
      ((heap ++ ext).set j v).getD i (HCell.strs [])
        = heap.getD i (HCell.strs []) := by
    intro i hi
    rw [getD_set_ne _ _ _ _ _ (by omega), getD_append_lt _ _ _ _ hi]
  have hreadm : ∀ i, i < heap.length →
      ((heap ++ ext).set j v).getD i (HCell.mat (Matcher.str []))
        = heap.getD i (HCell.mat (Matcher.str [])) := by
    intro i hi
    rw [getD_set_ne _ _ _ _ _ (by omega), getD_append_lt _ _ _ _ hi]
  unfold viewRec heapMat heapStrs
  simp only [recRefs] at hr
  rw [hreadm _ (hr r.matcherRef (by simp)), hread _ (hr r.paramsRef (by simp)),
    hread _ (hr r.methodsRef (by simp)), hread _ (hr r.integersRef (by simp))]

/-- The same, without the mutation. -/
theorem viewRec_ext {T : Type} (heap ext : List HCell) (r : HRec T)
    (hr : ∀ i ∈ recRefs r, i < heap.length) :
    viewRec (heap ++ ext) r = viewRec heap r := by
  have hread : ∀ i, i < heap.length →
      (heap ++ ext).getD i (HCell.strs []) = heap.getD i (HCell.strs []) := by
    intro i hi
    rw [getD_append_lt _ _ _ _ hi]
  have hreadm : ∀ i, i < heap.length →
      (heap ++ ext).getD i (HCell.mat (Matcher.str []))
        = heap.getD i (HCell.mat (Matcher.str [])) := by
    intro i hi
    rw [getD_append_lt _ _ _ _ hi]
  unfold viewRec heapMat heapStrs
  simp only [recRefs] at hr
  rw [hreadm _ (hr r.matcherRef (by simp)), hread _ (hr r.paramsRef (by simp)),
    hread _ (hr r.methodsRef (by simp)), hread _ (hr r.integersRef (by simp))]

/-- The heap route scan computes exactly the value-level scan of the
viewed records, with the winning clone read back through the returned
heap. -/
theorem hrouteLoop_view {T : Type} (heap : List HCell) (cs : Bool)
    (path method : List Char) (dflt : Option T) :
    ∀ (recs : List (HRec T))
      (defer : Option (HRec T × List (List Char × PVal))),
    hresView (hrouteLoop heap cs path method dflt recs defer)
      = routeLoop cs path method dflt (recs.map (viewRec heap))
          (defer.map (fun rp => (viewRec heap rp.1, rp.2))) := by
  intro recs
  induction recs with
  | nil =>
    intro defer
    cases defer with
    | some rp =>
      simp only [hrouteLoop, routeLoop, hresView, Except.map]
      simp [viewRec_clone]
      rfl
    | none =>
      cases dflt with
      | some d => simp [hrouteLoop, routeLoop, hresView, Except.map]
      | none => simp [hrouteLoop, routeLoop, hresView, Except.map]
  | cons r rest ih =>
    intro defer
    simp only [hrouteLoop, List.map_cons, routeLoop]
    cases hcaps : recordCaps cs path (viewRec heap r) with
    | none => exact ih defer
    | some caps =>
      cases helig : eligibleB (viewRec heap r) method with
      | false => exact ih defer
      | true =>
        cases hprox : (viewRec heap r).isProxy with
        | true =>
          simp only [if_true]
          rw [ih]
          congr 1
          cases defer with
          | none => rfl
          | some d => rfl
        | false =>
          simp only [Bool.false_eq_true, if_false, if_true, ite_true]
          simp only [hresView, Except.map]
          simp [viewRec_clone]
          rfl

/-- The observable outcome of the heap route is the value-level route of
the viewed state. -/
theorem hroute_view {T : Type} (hst : HRouter T) (path0 method0 : List Char) :
    hresView (hroute hst path0 method0) = route (viewState hst) path0 method0 := by
  unfold hroute route viewState
  rw [hrouteLoop_view]
  rfl

/-- map only depends on the function's values on the list. -/
theorem map_congr_on {α β : Type} (f g : α → β) :
    ∀ l : List α, (∀ a ∈ l, f a = g a) → l.map f = l.map g := by
  intro l
  induction l with
  | nil => intro _; rfl
  | cons a l ih =>
    intro h
    simp only [List.map_cons]
    rw [h a (by simp), ih (fun b hb => h b (by simp [hb]))]

/-- The routes accessor only extends the heap. -/
theorem hroutesAcc_ext_go {T : Type} :
    ∀ (recs : List (HRec T)) (h0 : List HCell) (acc : List (HRec T)),
      ∃ ext, (recs.foldl (fun acc r =>
        let hc := hcloneRouteRecord acc.1 r
        (hc.1, acc.2 ++ [hc.2])) (h0, acc)).1 = h0 ++ ext := by
  intro recs
  induction recs with
  | nil => intro h0 acc; exact ⟨[], by simp⟩
  | cons r recs ih =>
    intro h0 acc
    simp only [List.foldl_cons]
    obtain ⟨ext, hext⟩ := ih (hcloneRouteRecord h0 r).1 (acc ++ [(hcloneRouteRecord h0 r).2])
    refine ⟨[HCell.mat (heapMat h0 r.matcherRef),
             HCell.strs (heapStrs h0 r.paramsRef),
             HCell.strs (heapStrs h0 r.methodsRef),
             HCell.strs (heapStrs h0 r.integersRef)] ++ ext, ?_⟩
    rw [hext]
    simp [hcloneRouteRecord]

/-- Every record returned by the routes accessor refers only to freshly
allocated cells. -/
theorem hroutesAcc_fresh_go {T : Type} (n0 : Nat) :
    ∀ (recs : List (HRec T)) (h0 : List HCell) (acc : List (HRec T)),
      n0 ≤ h0.length → (∀ c ∈ acc, ∀ j ∈ recRefs c, n0 ≤ j) →
      ∀ c ∈ (recs.foldl (fun acc r =>
        let hc := hcloneRouteRecord acc.1 r
        (hc.1, acc.2 ++ [hc.2])) (h0, acc)).2, ∀ j ∈ recRefs c, n0 ≤ j := by
  intro recs
  induction recs with
  | nil =>
    intro h0 acc _ hacc
    exact hacc
  | cons r recs ih =>
    intro h0 acc hn hacc
    simp only [List.foldl_cons]
    apply ih (hcloneRouteRecord h0 r).1 (acc ++ [(hcloneRouteRecord h0 r).2])
    · simp only [hcloneRouteRecord, List.length_append]
      omega
    · intro c hc j hj
      rcases List.mem_append.mp hc with hc1 | hc2
      · exact hacc c hc1 j hj
      · have : c = (hcloneRouteRecord h0 r).2 := by simpa using hc2
        subst this
        simp only [hcloneRouteRecord, recRefs] at hj
        simp only [List.mem_cons, List.not_mem_nil, or_false] at hj
        rcases hj with rfl | rfl | rfl | rfl <;> omega

/-- The heap route scan only extends the heap, and a returned cloned
record refers only to freshly allocated cells. -/
theorem hrouteLoop_result {T : Type} (heap : List HCell) (cs : Bool)
    (path method : List Char) (dflt : Option T) :
    ∀ (recs : List (HRec T))
      (defer : Option (HRec T × List (List Char × PVal)))
      (res : Except (List Char) (HRouteResult T)) (heap2 : List HCell),
      hrouteLoop heap cs path method dflt recs defer = (res, heap2) →
      (∃ ext, heap2 = heap ++ ext) ∧
      (∀ hres hr, res = Except.ok hres → hres.route = some hr →
        ∀ j ∈ recRefs hr, heap.length ≤ j) := by
  intro recs
  induction recs with
  | nil =>
    intro defer res heap2 h
    cases defer with
    | some rp =>
      simp only [hrouteLoop] at h
      obtain ⟨h1, h2⟩ := Prod.mk.inj h
      refine ⟨⟨_, h2.symm⟩, ?_⟩
      intro hres hr hok hroute2 j hj
      rw [← h1] at hok
      cases hok
      simp only [hcloneRouteRecord] at hroute2
      cases hroute2
      simp only [hcloneRouteRecord, recRefs, List.mem_cons,
        List.not_mem_nil, or_false] at hj
      rcases hj with rfl | rfl | rfl | rfl <;> omega
    | none =>
      cases dflt with
      | some d =>
        simp only [hrouteLoop] at h
        obtain ⟨h1, h2⟩ := Prod.mk.inj h
        refine ⟨⟨[], by rw [← h2]; simp⟩, ?_⟩
        intro hres hr hok hroute2 j hj
        rw [← h1] at hok
        cases hok
        cases hroute2
      | none =>
        simp only [hrouteLoop] at h
        obtain ⟨h1, h2⟩ := Prod.mk.inj h
        refine ⟨⟨[], by rw [← h2]; simp⟩, ?_⟩
        intro hres hr hok hroute2 j hj
        rw [← h1] at hok
        cases hok
  | cons r rest ih =>
    intro defer res heap2 h
    simp only [hrouteLoop] at h
    cases hcaps : recordCaps cs path (viewRec heap r) with
    | none =>
      rw [hcaps] at h
      exact ih defer res heap2 h
    | some caps =>
      rw [hcaps] at h
      cases helig : eligibleB (viewRec heap r) method with
      | false =>
        rw [helig] at h
        simp only [Bool.false_eq_true, if_false] at h
        exact ih defer res heap2 h
      | true =>
        rw [helig] at h
        simp only [if_true] at h
        cases hprox : (viewRec heap r).isProxy with
        | true =>
          rw [hprox] at h
          simp only [if_true] at h
          exact ih _ res heap2 h
        | false =>
          rw [hprox] at h
          simp only [Bool.false_eq_true, if_false] at h
          obtain ⟨h1, h2⟩ := Prod.mk.inj h
          refine ⟨⟨_, h2.symm⟩, ?_⟩
          intro hres hr hok hroute2 j hj
          rw [← h1] at hok
          cases hok
          simp only [hcloneRouteRecord] at hroute2
          cases hroute2
          simp only [hcloneRouteRecord, recRefs, List.mem_cons,
            List.not_mem_nil, or_false] at hj
          rcases hj with rfl | rfl | rfl | rfl <;> omega

/-- Extending the heap and then mutating a cell at or past the original
length leaves the denoted router state unchanged. -/
theorem viewState_mut {T : Type} (hst : HRouter T) (hwf : HWf hst)
    (ext : List HCell) (j : Nat) (v : HCell) (hj : hst.heap.length ≤ j) :
    viewState { hst with heap := (hst.heap ++ ext).set j v }
      = viewState hst := by
  have hmap : hst.recs.map (viewRec ((hst.heap ++ ext).set j v))
      = hst.recs.map (viewRec hst.heap) :=
    map_congr_on _ _ _ (fun r hr =>
      viewRec_stable hst.heap ext j v r (fun i hi => hwf r hr i hi) hj)
  simp [viewState, hmap]

/-- C9: every record view handed to a caller (an element of the routes
accessor's array, or the route field of a route() result) refers only to
freshly allocated cells disjoint from the table's cells; mutating any of
its params, methods, integers or matcher cells leaves the table's denoted
state unchanged and does not change the observable outcome of any
subsequent route() call. -/
theorem c9_snapshot_isolation {T : Type} (hst : HRouter T) (hwf : HWf hst) :
    (∀ c ∈ (hroutesAcc hst).2, ∀ j ∈ recRefs c, ∀ v : HCell,
      (∀ r ∈ hst.recs, ∀ i ∈ recRefs r, i ≠ j) ∧
      viewState { hst with heap := (hroutesAcc hst).1.set j v }
        = viewState hst ∧
      (∀ path method,
        hresView (hroute { hst with heap := (hroutesAcc hst).1.set j v }
          path method) = hresView (hroute hst path method))) ∧
    (∀ path0 method0 res heap2,
      hroute hst path0 method0 = (Except.ok res, heap2) →
      ∀ hr, res.route = some hr → ∀ j ∈ recRefs hr, ∀ v : HCell,
        (∀ r ∈ hst.recs, ∀ i ∈ recRefs r, i ≠ j) ∧
        viewState { hst with heap := heap2.set j v } = viewState hst ∧
        (∀ path method,
          hresView (hroute { hst with heap := heap2.set j v } path method)
            = hresView (hroute hst path method))) := by
  constructor
  · intro c hc j hj v
    have hjge : hst.heap.length ≤ j :=
      hroutesAcc_fresh_go hst.heap.length hst.recs hst.heap [] (le_refl _)
        (fun c hc => absurd hc (List.not_mem_nil c)) c hc j hj
    obtain ⟨ext, hext0⟩ := hroutesAcc_ext_go hst.recs hst.heap []
    have hext : (hroutesAcc hst).1 = hst.heap ++ ext := hext0
    have hview : viewState { hst with heap := (hroutesAcc hst).1.set j v }
        = viewState hst := by
      rw [hext]
      exact viewState_mut hst hwf ext j v hjge
    refine ⟨?_, hview, ?_⟩
    · intro r hr i hi
      have := hwf r hr i hi
      omega
    · intro path method
      rw [hroute_view, hroute_view, hview]
  · intro p0 m0 res heap2 hrun hr hsome j hj v
    have hres := hrouteLoop_result hst.heap hst.options.caseSensitive
      (trimPath hst.options.separator p0) (upperStr m0)
      hst.defaultRouteObject hst.recs none (Except.ok res) heap2 hrun
    obtain ⟨⟨ext, hext⟩, hfresh⟩ := hres
    have hjge : hst.heap.length ≤ j := hfresh res hr rfl hsome j hj
    have hview : viewState { hst with heap := heap2.set j v }
        = viewState hst := by
      rw [hext]
      exact viewState_mut hst hwf ext j v hjge
    refine ⟨?_, hview, ?_⟩
    · intro r hrm i hi
      have := hwf r hrm i hi
      omega
    · intro path method
      rw [hroute_view, hroute_view, hview]

theorem c9_snapshot_isolation_witness :
    HWf c9wSt ∧ c9clone ∈ (hroutesAcc c9wSt).2 ∧ (4 : Nat) ∈ recRefs c9clone ∧
    viewState { c9wSt with
      heap := (hroutesAcc c9wSt).1.set 4 (HCell.strs []) } = viewState c9wSt ∧
    hresView (hroute { c9wSt with
        heap := (hroutesAcc c9wSt).1.set 4 (HCell.strs []) }
      (chars "/t") (chars "get"))
      = hresView (hroute c9wSt (chars "/t") (chars "get")) :=
  ⟨by unfold HWf; decide, by decide, by decide,
   ((c9_snapshot_isolation c9wSt (by unfold HWf; decide)).1 c9clone
     (by decide) 4 (by decide) (HCell.strs [])).2.1,
   ((c9_snapshot_isolation c9wSt (by unfold HWf; decide)).1 c9clone
     (by decide) 4 (by decide) (HCell.strs [])).2.2
     (chars "/t") (chars "get")⟩
